import Mathlib

/-!
Verification of the GPIO pin registry (`conn/gpio/gpioreg/gpioreg.go`).

The registry keeps two tiers of pins (tier 0 = preferred/memory-mapped,
tier 1 = limited/OS-mediated), each tier with a number-keyed map and a
name-keyed map, plus a map of named aliases that are resolved lazily.

Shallow embedding choices:
* Go maps become association lists (`List (κ × ν)`); Go map lookup is the
  first matching binding, Go map assignment of a fresh key is `cons`, and
  the in-place mutation of an alias record is `updateL`.
* Go `int` is `Int`; `strconv.Atoi` is modelled with its 64-bit range check.
* The global mutable state becomes an explicit `State` value threaded
  through the operations; functions that can fail return `Except`.
* `getByName` recurses through alias records without any cycle guard in
  the source, so the embedding takes a fuel argument and returns a
  three-valued result whose `out` constructor marks fuel exhaustion,
  i.e. an execution of the source that has not produced an answer.
-/

namespace Gpioreg

/-! ### Definitions: the embedded program and the spec-side definitions -/

/-- Decimal digit accumulator for `Atoi`: consumes the remaining characters,
failing on the first non-digit. -/
def parseDigitsAux : List Char → Nat → Option Nat
  | [], acc => some acc
  | c :: rest, acc =>
    if c.isDigit then parseDigitsAux rest (acc * 10 + (c.toNat - 48)) else none

/-- Model of Go `strconv.Atoi` (= `ParseInt(s, 10, 0)` with 64-bit `int`):
an optional sign, then one or more decimal digits, with the 64-bit range
check (out-of-range input is an error, hence `none`). -/
def Atoi (str : String) : Option Int :=
  match str.data with
  | [] => none
  | c :: cs =>
    let neg := c == '-'
    let digits := if c == '-' || c == '+' then cs else c :: cs
    match digits with
    | [] => none
    | _ =>
      match parseDigitsAux digits 0 with
      | none => none
      | some n =>
        if neg then (if n ≤ 2 ^ 63 then some (-(n : Int)) else none)
        else (if n ≤ 2 ^ 63 - 1 then some ((n : Int)) else none)

/-- Shallow model of `strconv.Quote` (escaping of special characters is not
modelled; no claim depends on the escaped text). -/
def quote (s : String) : String := "\"" ++ s ++ "\""

/-- Lexicographic order on character lists: the model of Go's `<` on
strings (byte-wise lexicographic, which agrees with character-wise
lexicographic on UTF-8).  Kernel-computable, unlike Mathlib's instance. -/
def charListLt : List Char → List Char → Bool
  | _, [] => false
  | [], _ :: _ => true
  | a :: as, b :: bs =>
    if a < b then true else if b < a then false else charListLt as bs

/-- Go's `<` on strings. -/
def strLt (a b : String) : Bool := charListLt a.data b.data

/-- A pin handle.  `base` is an ordinary driver pin (identity: number, name,
and its `String()` descriptor).  `pinAlias` is the registry's alias wrapper
with a nil embedded pin (unresolved), `pinAliasR` the same wrapper once its
embedded pin has been set (resolved).  The wrappers implement `RealPin`. -/
inductive Pin where
  | base (number : Int) (name descr : String)
  | pinAlias (name dest : String)
  | pinAliasR (name dest : String) (real : Pin)
deriving DecidableEq, Repr

instance : Inhabited Pin := ⟨.base 0 "" ""⟩

/-- `Name()`: a base pin's own name; an alias wrapper reports the alias name. -/
def Pin.Name : Pin → String
  | .base _ n _ => n
  | .pinAlias n _ => n
  | .pinAliasR n _ _ => n

/-- `Number()`: a base pin's number; a resolved wrapper delegates to the
embedded pin.  On an unresolved wrapper the Go code would dereference a nil
embedded handle (a panic); that case is unreachable in the modelled flows
and is given the value 0. -/
def Pin.Number : Pin → Int
  | .base n _ _ => n
  | .pinAlias _ _ => 0
  | .pinAliasR _ _ r => r.Number

/-- `String()`: a base pin's descriptor; `pinAlias.String` prints the alias
name with the destination (unresolved) or the real pin's name (resolved). -/
def Pin.str : Pin → String
  | .base _ _ d => d
  | .pinAlias n d => n ++ "(" ++ d ++ ")"
  | .pinAliasR n _ r => n ++ "(" ++ r.Name ++ ")"

/-- Whether the handle implements the `gpio.RealPin` interface. -/
def Pin.isRealPin : Pin → Bool
  | .base _ _ _ => false
  | .pinAlias _ _ => true
  | .pinAliasR _ _ _ => true

/-- `Real()`: the embedded pin of an alias wrapper (`none` both for a base
pin, which does not implement `RealPin`, and for a nil embedded handle). -/
def Pin.Real : Pin → Option Pin
  | .base _ _ _ => none
  | .pinAlias _ _ => none
  | .pinAliasR _ _ r => some r

/-- Transitive `Real()`: the base pin at the bottom of a wrapper chain. -/
def Pin.rootReal : Pin → Pin
  | .pinAliasR _ _ r => r.rootReal
  | p => p

/-- An alias record: destination identifier plus the lazily memoized
resolution (`pinAlias.PinIO`, nil while unresolved). -/
structure AliasRec where
  dest : String
  resolved : Option Pin
deriving DecidableEq, Repr

/-- `pinAlias.String()` as applied to a stored record with key `name`. -/
def aliasRecStr (name : String) (rec : AliasRec) : String :=
  match rec.resolved with
  | none => name ++ "(" ++ rec.dest ++ ")"
  | some p => name ++ "(" ++ p.Name ++ ")"

/-- The registry state: `byNumber[0]`, `byNumber[1]`, `byName[0]`,
`byName[1]` and `byAlias` of the source, as association lists. -/
structure State where
  byNumber0 : List (Int × Pin)
  byNumber1 : List (Int × Pin)
  byName0 : List (String × Pin)
  byName1 : List (String × Pin)
  byAlias : List (String × AliasRec)
deriving DecidableEq, Repr

/-- The initial registry: all five maps empty. -/
def emptyState : State := ⟨[], [], [], [], []⟩

/-- Go map lookup on an association list: first binding with the key. -/
def lookupL {α β : Type} [DecidableEq α] : List (α × β) → α → Option β
  | [], _ => none
  | (k, v) :: rest, key => if key = k then some v else lookupL rest key

/-- Go map assignment for a key that is present: replace the first binding. -/
def updateL {α β : Type} [DecidableEq α] : List (α × β) → α → β → List (α × β)
  | [], _, _ => []
  | (k, v) :: rest, key, nv =>
    if key = k then (k, nv) :: rest else (k, v) :: updateL rest key nv

/-- In-place mutation of the alias record stored under `name`
(`p.PinIO = ...` on the record held in `byAlias`). -/
def updateAlias (s : State) (name : String) (rec : AliasRec) : State :=
  { s with byAlias := updateL s.byAlias name rec }

/-- `byNumber[i]` (the source indexes the pair of maps with `i ∈ {0, 1}`). -/
def byNumberT (s : State) (i : Nat) : List (Int × Pin) :=
  if i = 0 then s.byNumber0 else s.byNumber1

/-- `byName[i]`. -/
def byNameT (s : State) (i : Nat) : List (String × Pin) :=
  if i = 0 then s.byName0 else s.byName1

/-- Assignment `byNumber[i] = l`. -/
def setByNumberT (s : State) (i : Nat) (l : List (Int × Pin)) : State :=
  if i = 0 then { s with byNumber0 := l } else { s with byNumber1 := l }

/-- Assignment `byName[i] = l`. -/
def setByNameT (s : State) (i : Nat) (l : List (String × Pin)) : State :=
  if i = 0 then { s with byName0 := l } else { s with byName1 := l }

/-- `getByNumber`: the preferred tier first, then the limited tier. -/
def getByNumber (s : State) (number : Int) : Option Pin :=
  match lookupL s.byNumber0 number with
  | some p => some p
  | none => lookupL s.byNumber1 number

/-- Result of a `getByName` execution with bounded fuel: a pin together
with the post-state, a definitive miss together with the post-state, or
`out` when the recursion exceeded the fuel (the source has no guard, so
`out` at every fuel means the source recurses forever). -/
inductive LookupRes where
  | found (p : Pin) (s : State)
  | absent (s : State)
  | out
deriving DecidableEq, Repr

/-- `getByName`: tier-0 names, tier-1 names, the alias table (recursively
resolving and memoizing an unresolved record, leaving it untouched on
failure), and finally, for a string that parses as an integer, a lookup by
number.  One unit of fuel is spent per recursive alias hop. -/
def getByNameF : Nat → State → String → LookupRes
  | fuel, s, name =>
    match lookupL s.byName0 name with
    | some p => .found p s
    | none =>
      match lookupL s.byName1 name with
      | some p => .found p s
      | none =>
        match lookupL s.byAlias name with
        | some rec =>
          match rec.resolved with
          | some p => .found (.pinAliasR name rec.dest p) s
          | none =>
            match fuel with
            | 0 => .out
            | fuel' + 1 =>
              match getByNameF fuel' s rec.dest with
              | .found r s' =>
                .found (.pinAliasR name rec.dest r)
                  (updateAlias s' name ⟨rec.dest, some r⟩)
              | .absent s' => .absent s'
              | .out => .out
        | none =>
          match Atoi name with
          | some i =>
            match getByNumber s i with
            | some p => .found p s
            | none => .absent s
          | none => .absent s

/-- The binary-search loop of the source's `search` (same algorithm as
`sort.Search`).  The loop shrinks `hi - lo` on every iteration, so the
first argument — an explicit iteration bound, instantiated with `n ≥ hi - lo`
by `search` — is never exhausted and the function computes exactly the
source's loop; it is passed explicitly so that the definition is structural
and computable by the kernel. -/
def searchLoop (f : Nat → Bool) : Nat → Nat → Nat → Nat
  | 0, lo, _ => lo
  | fuel + 1, lo, hi =>
    if lo < hi then
      if f ((lo + hi) / 2) then searchLoop f fuel lo ((lo + hi) / 2)
      else searchLoop f fuel ((lo + hi) / 2 + 1) hi
    else lo

/-- `search(n, f)`: smallest index in `[0, n)` where `f` flips to true
(assuming `f` monotone), else `n`. -/
def search (n : Nat) (f : Nat → Bool) : Nat := searchLoop f n 0 n

/-- The common shape of `insertPinByNumber` and `insertPinByName`: binary
search for the first element strictly greater than the new pin (under the
given strict comparison), then insert there (append + shift in the
source). -/
def insertPinBy (ltp : Pin → Pin → Bool) (l : List Pin) (p : Pin) : List Pin :=
  let i := search l.length (fun j => ltp p (l.getD j default))
  l.take i ++ p :: l.drop i

/-- `insertPinByNumber`: sorted insert keyed by `Number()`. -/
def insertPinByNumber (l : List Pin) (p : Pin) : List Pin :=
  insertPinBy (fun a b => decide (a.Number < b.Number)) l p

/-- `insertPinByName`: sorted insert keyed by `Name()`. -/
def insertPinByName (l : List Pin) (p : Pin) : List Pin :=
  insertPinBy (fun a b => strLt a.Name b.Name) l p

/-- First loop of `All()`: every tier-0 pin is inserted in number order and
its number recorded in `seen`. -/
def allPhase0 : List (Int × Pin) → List Pin × List Int → List Pin × List Int
  | [], acc => acc
  | (_, p) :: rest, (out, seen) =>
    allPhase0 rest (insertPinByNumber out p, p.Number :: seen)

/-- Second loop of `All()`: tier-1 pins whose number was not seen in tier 0
are inserted; `seen` is not extended. -/
def allPhase1 : List (Int × Pin) → List Pin → List Int → List Pin
  | [], out, _ => out
  | (_, p) :: rest, out, seen =>
    if p.Number ∈ seen then allPhase1 rest out seen
    else allPhase1 rest (insertPinByNumber out p) seen

/-- `All()`: merge the two number maps, tier 0 winning on a shared number,
into a list ordered by number. -/
def All (s : State) : List Pin :=
  let a := allPhase0 s.byNumber0 ([], [])
  allPhase1 s.byNumber1 a.1 a.2

/-- The loop body of `Aliases()` over the keys of `byAlias`, re-reading each
record from the current state (the source iterates the live map): an
already-resolved record is inserted; an unresolved one is resolved via
`getByName`, memoized and inserted on success, skipped on failure.  The
result is `none` when some resolution ran out of fuel. -/
def aliasesLoop : Nat → State → List String → List Pin → Option (List Pin × State)
  | _, s, [], out => some (out, s)
  | fuel, s, a :: rest, out =>
    match lookupL s.byAlias a with
    | none => aliasesLoop fuel s rest out
    | some rec =>
      match rec.resolved with
      | some p =>
        aliasesLoop fuel s rest (insertPinByName out (.pinAliasR a rec.dest p))
      | none =>
        match getByNameF fuel s rec.dest with
        | .found r s' =>
          aliasesLoop fuel (updateAlias s' a ⟨rec.dest, some r⟩) rest
            (insertPinByName out (.pinAliasR a rec.dest r))
        | .absent s' => aliasesLoop fuel s' rest out
        | .out => none

/-- `Aliases()` with bounded fuel for the embedded resolutions. -/
def AliasesF (fuel : Nat) (s : State) : Option (List Pin × State) :=
  aliasesLoop fuel s (s.byAlias.map Prod.fst) []

/-- `Register(p, preferred)`: the source's checks in source order, each
with its error message, then insertion into both maps of the chosen tier. -/
def Register (s : State) (p : Pin) (preferred : Bool) : Except String State :=
  let name := p.Name
  if name.length = 0 then
    .error "gpioreg: can't register a pin with no name"
  else if (Atoi name).isSome then
    .error ("gpioreg: can't register pin " ++ quote name ++
      " with name being only a number")
  else
    let number := p.Number
    if number < 0 then
      .error ("gpioreg: can't register pin " ++ quote name ++
        " with invalid pin number " ++ toString number)
    else
      let i := if preferred then 0 else 1
      let other := if preferred then 1 else 0
      match lookupL (byNumberT s i) number with
      | some orig =>
        .error ("gpioreg: can't register pin " ++ quote name ++
          " twice with the same number " ++ toString number ++
          "; already registered as " ++ quote orig.str)
      | none =>
        match lookupL (byNameT s i) name with
        | some orig =>
          .error ("gpioreg: can't register pin " ++ quote name ++
            " twice; already registered as " ++ quote orig.str)
        | none =>
          if p.isRealPin then
            .error ("gpioreg: can't register pin " ++ quote name ++
              ", it is already an alias: " ++
              quote (match p.Real with | some r => r.str | none => "") ++
              "; use RegisterAlias() instead")
          else
            match lookupL s.byAlias name with
            | some rec =>
              .error ("gpioreg: can't register pin " ++ quote name ++
                "; an alias already exist: " ++ quote (aliasRecStr name rec))
            | none =>
              match lookupL (byNameT s other) name with
              | some orig =>
                if number ≠ orig.Number then
                  .error ("gpioreg: can't register pin " ++ quote name ++
                    " twice with different number; already registered as " ++
                    quote orig.str)
                else
                  .ok (setByNameT (setByNumberT s i ((number, p) :: byNumberT s i))
                    i ((name, p) :: byNameT s i))
              | none =>
                .ok (setByNameT (setByNumberT s i ((number, p) :: byNumberT s i))
                  i ((name, p) :: byNameT s i))

/-- `RegisterAlias(alias, dest)`: validation, silent success on an identical
re-registration, failure on redefinition, else a fresh unresolved record. -/
def RegisterAlias (s : State) (aliasName dest : String) : Except String State :=
  if aliasName.length = 0 then
    .error "gpioreg: can't register an alias with no name"
  else if dest.length = 0 then
    .error ("gpioreg: can't register alias " ++ quote aliasName ++ " with no dest")
  else if (Atoi aliasName).isSome then
    .error ("gpioreg: can't register alias " ++ quote aliasName ++
      " with name being only a number")
  else
    match lookupL s.byAlias aliasName with
    | some orig =>
      if orig.dest = dest then .ok s
      else
        .error ("gpioreg: can't register alias " ++ quote aliasName ++
          " twice; it is already an alias: " ++ quote (aliasRecStr aliasName orig))
    | none => .ok { s with byAlias := (aliasName, ⟨dest, none⟩) :: s.byAlias }

/-- Keys of an association list are pairwise distinct (the Go map invariant). -/
abbrev NodupKeys {α β : Type} (l : List (α × β)) : Prop := (l.map Prod.fst).Nodup

/-- The only mutation `getByName` (and the `Aliases` loop) performs is
memoizing an unresolved alias record: the four pin maps and the alias keys
are untouched, and every alias record keeps its key and destination while
its memoized value can only go from absent to some pin, never change or
disappear. -/
def Evolves (s t : State) : Prop :=
  t.byName0 = s.byName0 ∧ t.byName1 = s.byName1 ∧
  t.byNumber0 = s.byNumber0 ∧ t.byNumber1 = s.byNumber1 ∧
  t.byAlias.map Prod.fst = s.byAlias.map Prod.fst ∧
  ∀ a rec, lookupL s.byAlias a = some rec →
    ∃ rec', lookupL t.byAlias a = some rec' ∧ rec'.dest = rec.dest ∧
      ∀ q, rec.resolved = some q → rec'.resolved = some q

/-- The alias `a`'s destination currently resolves in state `s`, within
recursion depth `fuel`: its record is either already memoized, or its
destination string resolves via `getByName` from `s`. -/
abbrev ResolvableF (fuel : Nat) (s : State) (a : String) : Prop :=
  ∃ rec, lookupL s.byAlias a = some rec ∧
    ((∃ p, rec.resolved = some p) ∨
      ∃ r s₁, getByNameF fuel s rec.dest = .found r s₁)

/-- Spec-side, from the claim's words: steps (1)–(2), the first hit among
the tier-0 name map then the tier-1 name map. -/
def nameTierHit (s : State) (name : String) : Option Pin :=
  match lookupL s.byName0 name with
  | some p => some p
  | none => lookupL s.byName1 name

/-- Spec-side, from the claim's words: step (4), treat a string that parses
as an integer as a number lookup (tier 0 then tier 1). -/
def numericHit (s : State) (name : String) : Option Pin :=
  match Atoi name with
  | some i => getByNumber s i
  | none => none

/-- Spec-side, from the claim's words: the ordered resolution chain — name
maps, then the alias table (resolving the destination recursively if the
record is unresolved, memoizing the resolved pin on success, returning
absent without memoizing on failure), then the numeric fallback, and absent
when nothing matches. -/
def byNameChainSpec : Nat → State → String → LookupRes
  | fuel, s, name =>
    match nameTierHit s name with
    | some p => .found p s
    | none =>
      match lookupL s.byAlias name with
      | some rec =>
        match rec.resolved with
        | some p => .found (.pinAliasR name rec.dest p) s
        | none =>
          match fuel with
          | 0 => .out
          | f + 1 =>
            match byNameChainSpec f s rec.dest with
            | .found r s₁ =>
              .found (.pinAliasR name rec.dest r)
                (updateAlias s₁ name ⟨rec.dest, some r⟩)
            | .absent s₁ => .absent s₁
            | .out => .out
      | none =>
        match numericHit s name with
        | some p => .found p s
        | none => .absent s

/-- The tier index selected by `preferred` (`true` = 0, `false` = 1). -/
def tierIdx (preferred : Bool) : Nat := if preferred then 0 else 1

/-- The other tier's index. -/
def otherIdx (preferred : Bool) : Nat := if preferred then 1 else 0

/-- Spec-side, from the claim's words: the eight distinct registration
failures, in validation order (a)–(h). -/
inductive RegErr where
  | emptyName
  | numericName
  | negativeNumber
  | dupNumber
  | dupName
  | realPinWrapper
  | nameIsAlias
  | crossTierMismatch
deriving DecidableEq, Repr

/-- Spec-side, from the claim's words: on success the pin is inserted into
both the number map and the name map of the selected tier. -/
def insertBothT (s : State) (i : Nat) (p : Pin) : State :=
  setByNameT (setByNumberT s i ((p.Number, p) :: byNumberT s i)) i
    ((p.Name, p) :: byNameT s i)

/-- Spec-side, from the claim's words: `Register` validates in this exact
order — (a) non-empty name, (b) name not parseable as an integer,
(c) number ≥ 0, (d) number not already in the selected tier's number map,
(e) name not already in the selected tier's name map, (f) not a real-pin
wrapper, (g) name not already an alias, (h) a name present in the other
tier must carry the same number — failing with the distinct error of the
first violated check, and only when every check passes inserting the pin
into both maps of the selected tier. -/
def registerSpec (s : State) (p : Pin) (preferred : Bool) : Except RegErr State :=
  if p.Name = "" then .error .emptyName
  else if (Atoi p.Name).isSome then .error .numericName
  else if p.Number < 0 then .error .negativeNumber
  else
    match lookupL (byNumberT s (tierIdx preferred)) p.Number with
    | some _ => .error .dupNumber
    | none =>
      match lookupL (byNameT s (tierIdx preferred)) p.Name with
      | some _ => .error .dupName
      | none =>
        if p.isRealPin then .error .realPinWrapper
        else
          match lookupL s.byAlias p.Name with
          | some _ => .error .nameIsAlias
          | none =>
            match lookupL (byNameT s (otherIdx preferred)) p.Name with
            | some orig =>
              if p.Number ≠ orig.Number then .error .crossTierMismatch
              else .ok (insertBothT s (tierIdx preferred) p)
            | none => .ok (insertBothT s (tierIdx preferred) p)

/-- The concrete message the source produces for each abstract failure. -/
def msgOf (s : State) (p : Pin) (preferred : Bool) : RegErr → String
  | .emptyName => "gpioreg: can't register a pin with no name"
  | .numericName =>
    "gpioreg: can't register pin " ++ quote p.Name ++ " with name being only a number"
  | .negativeNumber =>
    "gpioreg: can't register pin " ++ quote p.Name ++ " with invalid pin number " ++
      toString p.Number
  | .dupNumber =>
    "gpioreg: can't register pin " ++ quote p.Name ++ " twice with the same number " ++
      toString p.Number ++ "; already registered as " ++
      quote (match lookupL (byNumberT s (tierIdx preferred)) p.Number with
        | some orig => orig.str
        | none => "")
  | .dupName =>
    "gpioreg: can't register pin " ++ quote p.Name ++
      " twice; already registered as " ++
      quote (match lookupL (byNameT s (tierIdx preferred)) p.Name with
        | some orig => orig.str
        | none => "")
  | .realPinWrapper =>
    "gpioreg: can't register pin " ++ quote p.Name ++ ", it is already an alias: " ++
      quote (match p.Real with | some r => r.str | none => "") ++
      "; use RegisterAlias() instead"
  | .nameIsAlias =>
    "gpioreg: can't register pin " ++ quote p.Name ++ "; an alias already exist: " ++
      quote (match lookupL s.byAlias p.Name with
        | some rec => aliasRecStr p.Name rec
        | none => "")
  | .crossTierMismatch =>
    "gpioreg: can't register pin " ++ quote p.Name ++
      " twice with different number; already registered as " ++
      quote (match lookupL (byNameT s (otherIdx preferred)) p.Name with
        | some orig => orig.str
        | none => "")

/-- The registry after `RegisterAlias("a", "a")` on a fresh registry. -/
def cycleState : State := { emptyState with byAlias := [("a", ⟨"a", none⟩)] }

/-- The registry after `RegisterAlias("a", "b")` on a fresh registry. -/
def aliasStateAB : State := { emptyState with byAlias := [("a", ⟨"b", none⟩)] }

/-- The pin named "c" of the multi-hop scenario. -/
def pinC : Pin := .base 3 "c" "pinC"

/-- After `RegisterAlias("a", "b")`. -/
def c7s1 : State := ⟨[], [], [], [], [("a", ⟨"b", none⟩)]⟩

/-- After `RegisterAlias("b", "c")`. -/
def c7s2 : State := ⟨[], [], [], [], [("b", ⟨"c", none⟩), ("a", ⟨"b", none⟩)]⟩

/-- After `Register(pin "c", preferred)`. -/
def c7s3 : State :=
  ⟨[(3, pinC)], [], [("c", pinC)], [], [("b", ⟨"c", none⟩), ("a", ⟨"b", none⟩)]⟩

/-- The handle `ByName("a")` returns: the wrapper chain down to pin "c". -/
def c7w : Pin := .pinAliasR "a" "b" (.pinAliasR "b" "c" pinC)

/-- The registry after that lookup: both alias records memoized. -/
def c7s4 : State :=
  ⟨[(3, pinC)], [], [("c", pinC)], [],
    [("b", ⟨"c", some pinC⟩), ("a", ⟨"b", some (.pinAliasR "b" "c" pinC)⟩)]⟩

/-- A registry with numbers 2, 5 in tier 0 and 5, 7 in tier 1. -/
def sW4 : State :=
  ⟨[(5, .base 5 "x" "dx"), (2, .base 2 "w" "dw")],
   [(5, .base 5 "y" "dy"), (7, .base 7 "z" "dz")], [], [], []⟩

/-- A registry with a resolvable alias chain a → b → c and an unresolvable
alias q → "nope". -/
def sW5 : State :=
  ⟨[], [], [("c", Pin.base 3 "c" "dc")], [],
    [("b", ⟨"c", none⟩), ("a", ⟨"b", none⟩), ("q", ⟨"nope", none⟩)]⟩

/-- The list `Aliases()` returns on `sW5`. -/
def outW5 : List Pin :=
  [.pinAliasR "a" "b" (.pinAliasR "b" "c" (.base 3 "c" "dc")),
   .pinAliasR "b" "c" (.base 3 "c" "dc")]

/-- The registry after that `Aliases()` call: a and b memoized, q untouched. -/
def sW5f : State :=
  ⟨[], [], [("c", Pin.base 3 "c" "dc")], [],
    [("b", ⟨"c", some (.base 3 "c" "dc")⟩),
     ("a", ⟨"b", some (.pinAliasR "b" "c" (.base 3 "c" "dc"))⟩),
     ("q", ⟨"nope", none⟩)]⟩

/-- Tier-0 pin number 5 named "x". -/
def px : Pin := .base 5 "x" "dx"

/-- Tier-1 pin number 5 named "y". -/
def py : Pin := .base 5 "y" "dy"

/-- After `Register(px, preferred)` on a fresh registry. -/
def c8s1 : State := ⟨[(5, px)], [], [("x", px)], [], []⟩

/-- After additionally `Register(py, limited)` — legal, per C9. -/
def c8s2 : State := ⟨[(5, px)], [(5, py)], [("x", px)], [("y", py)], []⟩

/-! ### Theorems -/

theorem lookupL_mem {α β : Type} [DecidableEq α] {l : List (α × β)} {k : α} {v : β}
    (h : lookupL l k = some v) : (k, v) ∈ l := by
  induction l with
  | nil => simp [lookupL] at h
  | cons kv rest ih =>
    obtain ⟨k', v'⟩ := kv
    rw [lookupL] at h
    by_cases hk : k = k'
    · subst hk
      simp at h
      subst h
      exact List.mem_cons_self _ _
    · rw [if_neg hk] at h
      exact List.mem_cons_of_mem _ (ih h)

theorem lookupL_eq_none {α β : Type} [DecidableEq α] {l : List (α × β)} {k : α} :
    lookupL l k = none ↔ k ∉ l.map Prod.fst := by
  induction l with
  | nil => simp [lookupL]
  | cons kv rest ih =>
    obtain ⟨k', v'⟩ := kv
    rw [lookupL]
    by_cases hk : k = k'
    · subst hk; simp
    · rw [if_neg hk]; simp [hk, ih]

theorem mem_lookupL {α β : Type} [DecidableEq α] {l : List (α × β)} {k : α} {v : β}
    (hnd : NodupKeys l) (h : (k, v) ∈ l) : lookupL l k = some v := by
  induction l with
  | nil => cases h
  | cons kv rest ih =>
    obtain ⟨k', v'⟩ := kv
    rcases List.mem_cons.mp h with heq | hmem
    · cases heq
      rw [lookupL, if_pos rfl]
    · rw [lookupL]
      have hnd' : (k' :: rest.map Prod.fst).Nodup := hnd
      have hk : k ≠ k' := by
        intro hkeq
        subst hkeq
        exact (List.nodup_cons.mp hnd').1 (List.mem_map_of_mem Prod.fst hmem)
      rw [if_neg hk]
      exact ih (List.nodup_cons.mp hnd').2 hmem

theorem lookup_updateL_ne {α β : Type} [DecidableEq α] (l : List (α × β)) (k a : α)
    (nv : β) (hne : a ≠ k) : lookupL (updateL l k nv) a = lookupL l a := by
  induction l with
  | nil => rfl
  | cons kv rest ih =>
    obtain ⟨k', v'⟩ := kv
    rw [updateL]
    by_cases hk : k = k'
    · subst hk
      rw [if_pos rfl, lookupL, lookupL, if_neg hne, if_neg hne]
    · rw [if_neg hk, lookupL, lookupL]
      by_cases ha : a = k'
      · rw [if_pos ha, if_pos ha]
      · rw [if_neg ha, if_neg ha, ih]

theorem lookup_updateL_self {α β : Type} [DecidableEq α] (l : List (α × β)) (k : α)
    (nv : β) (h : (lookupL l k).isSome) : lookupL (updateL l k nv) k = some nv := by
  induction l with
  | nil => exact Bool.noConfusion h
  | cons kv rest ih =>
    obtain ⟨k', v'⟩ := kv
    rw [updateL]
    by_cases hk : k = k'
    · subst hk
      rw [if_pos rfl, lookupL, if_pos rfl]
    · rw [if_neg hk, lookupL, if_neg hk]
      rw [lookupL, if_neg hk] at h
      exact ih h

/-- A string that parses as a number cannot be a key of a map whose keys all
fail to parse. -/
theorem numeric_not_key {β : Type} {l : List (String × β)} {str : String} {n : Int}
    (hkeys : ∀ kv ∈ l, Atoi kv.1 = none) (hstr : Atoi str = some n) :
    lookupL l str = none := by
  rw [lookupL_eq_none]
  intro hmem
  obtain ⟨kv, hkv, hfst⟩ := List.mem_map.mp hmem
  have := hkeys kv hkv
  rw [hfst, hstr] at this
  cases this

theorem searchLoop_spec (f : Nat → Bool) :
    ∀ (fuel lo hi : Nat), hi - lo ≤ fuel → lo ≤ hi →
    (∀ i j, lo ≤ i → i ≤ j → j < hi → f i = true → f j = true) →
    lo ≤ searchLoop f fuel lo hi ∧ searchLoop f fuel lo hi ≤ hi ∧
      (∀ j, lo ≤ j → j < searchLoop f fuel lo hi → f j = false) ∧
      (searchLoop f fuel lo hi < hi → f (searchLoop f fuel lo hi) = true) := by
  intro fuel
  induction fuel with
  | zero =>
    intro lo hi hfuel hle _
    have heq : hi = lo := by omega
    subst heq
    rw [searchLoop]
    exact ⟨le_refl _, le_refl _, fun j h1 h2 => by omega, fun h => by omega⟩
  | succ n ih =>
    intro lo hi hfuel hle hmono
    rw [searchLoop]
    by_cases h : lo < hi
    · rw [if_pos h]
      have hmlo : lo ≤ (lo + hi) / 2 := by omega
      have hmhi : (lo + hi) / 2 < hi := by omega
      cases hf : f ((lo + hi) / 2) with
      | false =>
        rw [if_neg (by simp)]
        obtain ⟨h1, h2, h3, h4⟩ := ih ((lo + hi) / 2 + 1) hi (by omega) (by omega)
          (fun i j hi' hij hj hfi => hmono i j (by omega) hij hj hfi)
        refine ⟨by omega, h2, ?_, h4⟩
        intro j hjlo hjr
        by_cases hjm : (lo + hi) / 2 + 1 ≤ j
        · exact h3 j hjm hjr
        · cases hfj : f j with
          | false => rfl
          | true =>
            exfalso
            have := hmono j ((lo + hi) / 2) hjlo (by omega) hmhi hfj
            rw [hf] at this
            exact Bool.false_ne_true this
      | true =>
        rw [if_pos rfl]
        obtain ⟨h1, h2, h3, h4⟩ := ih lo ((lo + hi) / 2) (by omega) hmlo
          (fun i j hi' hij hj hfi => hmono i j hi' hij (by omega) hfi)
        refine ⟨h1, by omega, h3, ?_⟩
        intro _
        by_cases hr : searchLoop f n lo ((lo + hi) / 2) < (lo + hi) / 2
        · exact h4 hr
        · have heq : searchLoop f n lo ((lo + hi) / 2) = (lo + hi) / 2 := by omega
          rw [heq]
          exact hf
    · rw [if_neg h]
      exact ⟨le_refl _, hle, fun j h1 h2 => by omega, fun hlt => by omega⟩

theorem search_spec (n : Nat) (f : Nat → Bool)
    (hmono : ∀ i j, i ≤ j → j < n → f i = true → f j = true) :
    search n f ≤ n ∧ (∀ j, j < search n f → f j = false) ∧
      (search n f < n → f (search n f) = true) := by
  obtain ⟨_, h2, h3, h4⟩ := searchLoop_spec f n 0 n (by omega) (by omega)
    (fun i j _ hij hj hfi => hmono i j hij hj hfi)
  exact ⟨h2, fun j hj => h3 j (Nat.zero_le j) hj, h4⟩

theorem insertPinBy_spec (ltp : Pin → Pin → Bool)
    (htrans : ∀ a b c, ltp a b = true → ltp b c = true → ltp a c = true)
    (l : List Pin) (p : Pin)
    (hs : l.Pairwise (fun a b => ltp a b = true))
    (hf : ∀ q ∈ l, ltp q p = true ∨ ltp p q = true) :
    (insertPinBy ltp l p).Pairwise (fun a b => ltp a b = true) ∧
      (∀ q, q ∈ insertPinBy ltp l p ↔ q = p ∨ q ∈ l) := by
  have hmono : ∀ i j, i ≤ j → j < l.length →
      (fun j => ltp p (l.getD j default)) i = true →
      (fun j => ltp p (l.getD j default)) j = true := by
    intro i j hij hj hfi
    have hi : i < l.length := lt_of_le_of_lt hij hj
    simp only at hfi ⊢
    rw [List.getD_eq_getElem l default hi] at hfi
    rw [List.getD_eq_getElem l default hj]
    rcases Nat.eq_or_lt_of_le hij with heq | hlt
    · subst heq; exact hfi
    · exact htrans _ _ _ hfi (List.pairwise_iff_getElem.mp hs i j hi hj hlt)
  obtain ⟨hle, hpre, hbound⟩ :=
    search_spec l.length (fun j => ltp p (l.getD j default)) hmono
  rw [insertPinBy]
  set i := search l.length (fun j => ltp p (l.getD j default)) with hidef
  have hl : l.take i ++ l.drop i = l := List.take_append_drop i l
  have hsplit := List.pairwise_append.mp (hl ▸ hs)
  obtain ⟨hta, hda, hcross⟩ := hsplit
  have htake_lt : ∀ a ∈ l.take i, ltp a p = true := by
    intro a ha
    obtain ⟨j, hj, hje⟩ := List.getElem_of_mem ha
    have hjlen : j < l.length := by
      have := hj; rw [List.length_take] at this; omega
    have hji : j < i := by
      have := hj; rw [List.length_take] at this; omega
    rw [List.getElem_take] at hje
    have hfj := hpre j hji
    simp only at hfj
    rw [List.getD_eq_getElem l default hjlen] at hfj
    have hmem : a ∈ l := (List.take_sublist i l).subset ha
    rcases hf a hmem with h | h
    · exact h
    · rw [← hje] at h
      rw [h] at hfj
      cases hfj
  have hdrop_gt : ∀ b ∈ l.drop i, ltp p b = true := by
    intro b hb
    obtain ⟨j, hj, hje⟩ := List.getElem_of_mem hb
    have hijlen : i + j < l.length := by
      have := hj; rw [List.length_drop] at this; omega
    have hilt : i < l.length := by omega
    rw [List.getElem_drop] at hje
    have hfi := hbound hilt
    simp only at hfi
    rw [List.getD_eq_getElem l default hilt] at hfi
    rw [← hje]
    rcases Nat.eq_zero_or_pos j with rfl | hpos
    · simpa using hfi
    · exact htrans _ _ _ hfi (List.pairwise_iff_getElem.mp hs i (i + j) hilt hijlen (by omega))
  constructor
  · apply List.pairwise_append.mpr
    refine ⟨hta, List.Pairwise.cons hdrop_gt hda, ?_⟩
    intro a ha b hb
    rcases List.mem_cons.mp hb with rfl | hb'
    · exact htake_lt a ha
    · exact hcross a ha b hb'
  · intro q
    rw [List.mem_append, List.mem_cons]
    constructor
    · rintro (h | h | h)
      · exact Or.inr ((List.take_sublist i l).subset h)
      · exact Or.inl h
      · exact Or.inr ((List.drop_sublist i l).subset h)
    · rintro (rfl | h)
      · exact Or.inr (Or.inl rfl)
      · rcases List.mem_append.mp (hl ▸ h) with h' | h'
        · exact Or.inl h'
        · exact Or.inr (Or.inr h')

theorem charListLt_trans :
    ∀ l1 l2 l3 : List Char, charListLt l1 l2 = true → charListLt l3 l1 = true →
      charListLt l3 l2 = true := by
  intro l1
  induction l1 with
  | nil =>
    intro l2 l3 h12 h31
    cases l3 with
    | nil => cases h31
    | cons c cs => cases h31
  | cons a as ih =>
    intro l2 l3 h12 h31
    cases l2 with
    | nil => cases h12
    | cons b bs =>
      cases l3 with
      | nil => rfl
      | cons c cs =>
        rw [charListLt] at h12 h31 ⊢
        by_cases hca : c < a
        · by_cases hab : a < b
          · rw [if_pos (lt_trans hca hab)]
          · rw [if_neg hab] at h12
            by_cases hba : b < a
            · rw [if_pos hba] at h12
              cases h12
            · have habeq : a = b := le_antisymm (not_lt.mp hba) (not_lt.mp hab)
              rw [if_pos (habeq ▸ hca)]
        · rw [if_neg hca] at h31
          by_cases hac : a < c
          · rw [if_pos hac] at h31
            cases h31
          · rw [if_neg hac] at h31
            have haceq : a = c := le_antisymm (not_lt.mp hca) (not_lt.mp hac)
            subst haceq
            by_cases hab : a < b
            · rw [if_pos hab] at h12 ⊢
            · rw [if_neg hab] at h12 ⊢
              by_cases hba : b < a
              · rw [if_pos hba] at h12
                cases h12
              · rw [if_neg hba] at h12 ⊢
                exact ih bs cs h12 h31

theorem charListLt_total :
    ∀ l1 l2 : List Char, l1 ≠ l2 →
      charListLt l1 l2 = true ∨ charListLt l2 l1 = true := by
  intro l1
  induction l1 with
  | nil =>
    intro l2 hne
    cases l2 with
    | nil => exact absurd rfl hne
    | cons b bs => exact Or.inl rfl
  | cons a as ih =>
    intro l2 hne
    cases l2 with
    | nil => exact Or.inr rfl
    | cons b bs =>
      by_cases hab : a < b
      · refine Or.inl ?_
        rw [charListLt, if_pos hab]
      · by_cases hba : b < a
        · refine Or.inr ?_
          rw [charListLt, if_pos hba]
        · have habeq : a = b := le_antisymm (not_lt.mp hba) (not_lt.mp hab)
          subst habeq
          have hne' : as ≠ bs := fun hc => hne (hc ▸ rfl)
          rcases ih bs hne' with h | h
          · refine Or.inl ?_
            rw [charListLt, if_neg hab, if_neg hab]
            exact h
          · refine Or.inr ?_
            rw [charListLt, if_neg hab, if_neg hab]
            exact h

theorem charListLt_iff :
    ∀ l1 l2 : List Char, charListLt l1 l2 = true ↔ List.Lex (· < ·) l1 l2 := by
  intro l1
  induction l1 with
  | nil =>
    intro l2
    cases l2 with
    | nil =>
      constructor
      · intro h
        cases h
      · intro h
        cases h
    | cons b bs => exact iff_of_true rfl List.Lex.nil
  | cons a as ih =>
    intro l2
    cases l2 with
    | nil =>
      constructor
      · intro h
        cases h
      · intro h
        cases h
    | cons b bs =>
      rw [charListLt]
      by_cases hab : a < b
      · rw [if_pos hab]
        exact iff_of_true rfl (List.Lex.rel hab)
      · rw [if_neg hab]
        by_cases hba : b < a
        · rw [if_pos hba]
          constructor
          · intro h
            cases h
          · intro h
            cases h with
            | cons h => exact absurd hba (lt_irrefl a)
            | rel h => exact absurd h hab
        · rw [if_neg hba]
          have habeq : a = b := le_antisymm (not_lt.mp hba) (not_lt.mp hab)
          subst habeq
          rw [ih bs]
          constructor
          · intro h
            exact List.Lex.cons h
          · intro h
            cases h with
            | cons h => exact h
            | rel h => exact absurd h hab

theorem strLt_iff (a b : String) : strLt a b = true ↔ a < b := by
  rw [String.lt_iff_toList_lt]
  exact charListLt_iff a.data b.data

/-- `insertPinByNumber` on a strictly number-sorted list with a fresh
number: sortedness is preserved and membership grows by exactly the new
pin. -/
theorem insertPinByNumber_spec (l : List Pin) (p : Pin)
    (hs : l.Pairwise (fun a b => a.Number < b.Number))
    (hf : ∀ q ∈ l, q.Number ≠ p.Number) :
    (insertPinByNumber l p).Pairwise (fun a b => a.Number < b.Number) ∧
      (∀ q, q ∈ insertPinByNumber l p ↔ q = p ∨ q ∈ l) := by
  have h := insertPinBy_spec (fun a b => decide (a.Number < b.Number))
    (by
      intro a b c h1 h2
      simp only [decide_eq_true_eq] at h1 h2 ⊢
      exact lt_trans h1 h2)
    l p
    (hs.imp (by intro a b h; simpa using h))
    (by
      intro q hq
      rcases lt_or_gt_of_ne (hf q hq) with h | h
      · exact Or.inl (by simpa using h)
      · exact Or.inr (by simpa using h))
  exact ⟨h.1.imp (by intro a b hb; simpa using hb), h.2⟩

/-- `insertPinByName` on a strictly name-sorted list with a fresh name. -/
theorem insertPinByName_spec (l : List Pin) (p : Pin)
    (hs : l.Pairwise (fun a b => a.Name < b.Name))
    (hf : ∀ q ∈ l, q.Name ≠ p.Name) :
    (insertPinByName l p).Pairwise (fun a b => a.Name < b.Name) ∧
      (∀ q, q ∈ insertPinByName l p ↔ q = p ∨ q ∈ l) := by
  have h := insertPinBy_spec (fun a b => strLt a.Name b.Name)
    (fun a b c h1 h2 => charListLt_trans _ _ _ h2 h1)
    l p
    (hs.imp (by intro a b h; exact (strLt_iff _ _).mpr h))
    (by
      intro q hq
      rcases charListLt_total q.Name.data p.Name.data
        (fun hc => hf q hq (by
          have : q.Name = p.Name := by
            cases hq' : q.Name
            cases hp' : p.Name
            rw [hq', hp'] at hc
            exact congrArg String.mk hc
          exact this)) with h | h
      · exact Or.inl h
      · exact Or.inr h)
  exact ⟨h.1.imp (by intro a b hb; exact (strLt_iff _ _).mp hb), h.2⟩

theorem updateL_keys {α β : Type} [DecidableEq α] (l : List (α × β)) (k : α) (nv : β) :
    (updateL l k nv).map Prod.fst = l.map Prod.fst := by
  induction l with
  | nil => rfl
  | cons kv rest ih =>
    obtain ⟨k', v'⟩ := kv
    rw [updateL]
    by_cases hk : k = k'
    · rw [if_pos hk]
      simp
    · rw [if_neg hk]
      simp only [List.map_cons, ih]

theorem evolves_refl (s : State) : Evolves s s :=
  ⟨rfl, rfl, rfl, rfl, rfl, fun _ rec h => ⟨rec, h, rfl, fun _ hq => hq⟩⟩

theorem evolves_trans {s t u : State} (h1 : Evolves s t) (h2 : Evolves t u) :
    Evolves s u :=
  ⟨h2.1.trans h1.1, h2.2.1.trans h1.2.1, h2.2.2.1.trans h1.2.2.1,
    h2.2.2.2.1.trans h1.2.2.2.1, h2.2.2.2.2.1.trans h1.2.2.2.2.1,
    fun a rec hq =>
      match h1.2.2.2.2.2 a rec hq with
      | ⟨rec₁, hq₁, hd₁, hr₁⟩ =>
        match h2.2.2.2.2.2 a rec₁ hq₁ with
        | ⟨rec₂, hq₂, hd₂, hr₂⟩ =>
          ⟨rec₂, hq₂, hd₂.trans hd₁, fun q hq' => hr₂ q (hr₁ q hq')⟩⟩

/-- A resolved record survives any evolution unchanged. -/
theorem evolves_resolved {s t : State} (he : Evolves s t) {a d : String} {r : Pin}
    (h : lookupL s.byAlias a = some ⟨d, some r⟩) :
    lookupL t.byAlias a = some ⟨d, some r⟩ := by
  obtain ⟨rec', hrec', hdest, hres⟩ := he.2.2.2.2.2 a ⟨d, some r⟩ h
  have hres' : rec'.resolved = some r := hres r rfl
  have : rec' = ⟨d, some r⟩ := by
    cases rec'
    simp only at hdest hres'
    rw [hdest, hres']
  rw [← this]
  exact hrec'

/-- Memoizing a record that is unresolved in the base state `s` preserves
`Evolves s`. -/
theorem evolves_update {s t : State} {a d : String} (r : Pin)
    (he : Evolves s t) (hrec : lookupL s.byAlias a = some ⟨d, none⟩) :
    Evolves s (updateAlias t a ⟨d, some r⟩) := by
  obtain ⟨e1, e2, e3, e4, e5, e6⟩ := he
  refine ⟨e1, e2, e3, e4, ?_, ?_⟩
  · rw [updateAlias]
    simp only
    rw [updateL_keys]
    exact e5
  · intro a₀ rec₀ hq
    by_cases hne : a₀ = a
    · subst hne
      have hrec₀ : rec₀ = ⟨d, none⟩ := by
        rw [hq] at hrec
        exact (Option.some.injEq _ _ ▸ hrec).symm ▸ rfl
      obtain ⟨rec₁, hrec₁, _, _⟩ := e6 a₀ rec₀ hq
      refine ⟨⟨d, some r⟩, ?_, ?_, ?_⟩
      · rw [updateAlias]
        simp only
        exact lookup_updateL_self t.byAlias a₀ ⟨d, some r⟩ (by rw [hrec₁]; rfl)
      · rw [hrec₀]
      · intro q hq'
        rw [hrec₀] at hq'
        cases hq'
    · obtain ⟨rec₁, hrec₁, hdest₁, hres₁⟩ := e6 a₀ rec₀ hq
      refine ⟨rec₁, ?_, hdest₁, hres₁⟩
      rw [updateAlias]
      simp only
      rw [lookup_updateL_ne _ _ _ _ hne]
      exact hrec₁

/-- `getByName`'s effect on the state: a miss leaves the state exactly as it
was (in particular nothing is memoized on failure), and a hit only memoizes
previously-unresolved alias records (`Evolves`). -/
theorem getByName_state :
    ∀ (fuel : Nat) (s : State) (x : String),
      (∀ s', getByNameF fuel s x = .absent s' → s' = s) ∧
      (∀ r s', getByNameF fuel s x = .found r s' → Evolves s s') := by
  intro fuel
  induction fuel with
  | zero =>
    intro s x
    constructor
    · intro s' h
      rw [getByNameF] at h
      cases h0 : lookupL s.byName0 x <;> simp only [h0] at h
      case some p => cases h
      cases h1 : lookupL s.byName1 x <;> simp only [h1] at h
      case some p => cases h
      cases h2 : lookupL s.byAlias x <;> simp only [h2] at h
      case some rec =>
        cases h5 : rec.resolved <;> simp only [h5] at h
        · cases h
        · cases h
      cases h3 : Atoi x <;> simp only [h3] at h
      · cases h; rfl
      case some i =>
        cases h4 : getByNumber s i <;> simp only [h4] at h
        · cases h; rfl
        · cases h
    · intro r s' h
      rw [getByNameF] at h
      cases h0 : lookupL s.byName0 x <;> simp only [h0] at h
      case some p => cases h; exact evolves_refl s
      cases h1 : lookupL s.byName1 x <;> simp only [h1] at h
      case some p => cases h; exact evolves_refl s
      cases h2 : lookupL s.byAlias x <;> simp only [h2] at h
      case some rec =>
        cases h5 : rec.resolved <;> simp only [h5] at h
        · cases h
        · cases h; exact evolves_refl s
      cases h3 : Atoi x <;> simp only [h3] at h
      · cases h
      case some i =>
        cases h4 : getByNumber s i <;> simp only [h4] at h
        · cases h
        · cases h; exact evolves_refl s
  | succ n ih =>
    intro s x
    constructor
    · intro s' h
      rw [getByNameF] at h
      cases h0 : lookupL s.byName0 x <;> simp only [h0] at h
      case some p => cases h
      cases h1 : lookupL s.byName1 x <;> simp only [h1] at h
      case some p => cases h
      cases h2 : lookupL s.byAlias x <;> simp only [h2] at h
      case some rec =>
        cases h5 : rec.resolved <;> simp only [h5] at h
        · cases h6 : getByNameF n s rec.dest <;> simp only [h6] at h
          case found r₀ s₁ => cases h
          case absent s₁ =>
            cases h
            exact (ih s rec.dest).1 _ h6
          case out => cases h
        · cases h
      cases h3 : Atoi x <;> simp only [h3] at h
      · cases h; rfl
      case some i =>
        cases h4 : getByNumber s i <;> simp only [h4] at h
        · cases h; rfl
        · cases h
    · intro r s' h
      rw [getByNameF] at h
      cases h0 : lookupL s.byName0 x <;> simp only [h0] at h
      case some p => cases h; exact evolves_refl s
      cases h1 : lookupL s.byName1 x <;> simp only [h1] at h
      case some p => cases h; exact evolves_refl s
      cases h2 : lookupL s.byAlias x <;> simp only [h2] at h
      case some rec =>
        cases h5 : rec.resolved <;> simp only [h5] at h
        · cases h6 : getByNameF n s rec.dest <;> simp only [h6] at h
          case found r₀ s₁ =>
            cases h
            have hrec : lookupL s.byAlias x = some ⟨rec.dest, none⟩ := by
              rw [h2]
              cases rec
              simp_all
            exact evolves_update r₀ ((ih s rec.dest).2 r₀ s₁ h6) hrec
          case absent s₁ => cases h
          case out => cases h
        · cases h; exact evolves_refl s
      cases h3 : Atoi x <;> simp only [h3] at h
      · cases h
      case some i =>
        cases h4 : getByNumber s i <;> simp only [h4] at h
        · cases h
        · cases h; exact evolves_refl s

theorem keys_mem_iff {α β : Type} (l : List (α × β)) (k : α) :
    k ∈ l.map Prod.fst ↔ ∃ v, (k, v) ∈ l := by
  rw [List.mem_map]
  constructor
  · rintro ⟨⟨k', v⟩, hmem, rfl⟩
    exact ⟨v, hmem⟩
  · rintro ⟨v, hmem⟩
    exact ⟨(k, v), hmem, rfl⟩

theorem allPhase0_spec :
    ∀ (l : List (Int × Pin)) (out : List Pin) (seen : List Int),
      NodupKeys l → (∀ kv ∈ l, kv.2.Number = kv.1) →
      out.Pairwise (fun a b => a.Number < b.Number) →
      (∀ q ∈ out, ∀ kv ∈ l, q.Number ≠ kv.1) →
      (∀ x, x ∈ seen ↔ ∃ q ∈ out, q.Number = x) →
      (allPhase0 l (out, seen)).1.Pairwise (fun a b => a.Number < b.Number) ∧
      (∀ q, q ∈ (allPhase0 l (out, seen)).1 ↔ q ∈ out ∨ ∃ k, (k, q) ∈ l) ∧
      (∀ x, x ∈ (allPhase0 l (out, seen)).2 ↔
        (∃ q ∈ out, q.Number = x) ∨ ∃ p, (x, p) ∈ l) := by
  intro l
  induction l with
  | nil =>
    intro out seen _ _ hsort _ hseen
    refine ⟨hsort, fun q => ?_, fun x => ?_⟩
    · simp [allPhase0]
    · simp only [allPhase0]
      rw [hseen x]
      simp
  | cons kv rest ih =>
    intro out seen hnd hkey hsort hfresh hseen
    obtain ⟨k, p⟩ := kv
    have hpk : p.Number = k := hkey (k, p) (List.mem_cons_self _ _)
    have hnd' : (k :: rest.map Prod.fst).Nodup := hnd
    have hfreshp : ∀ q ∈ out, Pin.Number q ≠ Pin.Number p := by
      intro q hq
      rw [hpk]
      exact hfresh q hq (k, p) (List.mem_cons_self _ _)
    obtain ⟨hins_sort, hins_mem⟩ := insertPinByNumber_spec out p hsort hfreshp
    rw [allPhase0]
    have hstep := ih (insertPinByNumber out p) (p.Number :: seen)
      (List.nodup_cons.mp hnd').2
      (fun kv h => hkey kv (List.mem_cons_of_mem _ h))
      hins_sort
      (by
        intro q hq kv' hkv'
        rcases (hins_mem q).mp hq with rfl | hq'
        · rw [hpk]
          intro hcon
          exact (List.nodup_cons.mp hnd').1
            (hcon ▸ List.mem_map_of_mem Prod.fst hkv')
        · exact hfresh q hq' kv' (List.mem_cons_of_mem _ hkv'))
      (by
        intro x
        simp only [List.mem_cons]
        constructor
        · rintro (rfl | hx)
          · exact ⟨p, (hins_mem p).mpr (Or.inl rfl), rfl⟩
          · obtain ⟨q, hq, hqx⟩ := (hseen x).mp hx
            exact ⟨q, (hins_mem q).mpr (Or.inr hq), hqx⟩
        · rintro ⟨q, hq, rfl⟩
          rcases (hins_mem q).mp hq with rfl | hq'
          · exact Or.inl rfl
          · exact Or.inr ((hseen q.Number).mpr ⟨q, hq', rfl⟩))
    obtain ⟨c1, c2, c3⟩ := hstep
    refine ⟨c1, fun q => ?_, fun x => ?_⟩
    · rw [c2 q]
      rw [hins_mem q]
      constructor
      · rintro ((rfl | hq) | ⟨k', hk'⟩)
        · exact Or.inr ⟨k, List.mem_cons_self _ _⟩
        · exact Or.inl hq
        · exact Or.inr ⟨k', List.mem_cons_of_mem _ hk'⟩
      · rintro (hq | ⟨k', hk'⟩)
        · exact Or.inl (Or.inr hq)
        · rcases List.mem_cons.mp hk' with heq | hmem
          · cases heq
            exact Or.inl (Or.inl rfl)
          · exact Or.inr ⟨k', hmem⟩
    · rw [c3 x]
      constructor
      · rintro (⟨q, hq, rfl⟩ | ⟨p', hp'⟩)
        · rcases (hins_mem q).mp hq with rfl | hq'
          · exact Or.inr ⟨q, hpk ▸ List.mem_cons_self _ _⟩
          · exact Or.inl ⟨q, hq', rfl⟩
        · exact Or.inr ⟨p', List.mem_cons_of_mem _ hp'⟩
      · rintro (⟨q, hq, rfl⟩ | ⟨p', hp'⟩)
        · exact Or.inl ⟨q, (hins_mem q).mpr (Or.inr hq), rfl⟩
        · rcases List.mem_cons.mp hp' with heq | hmem
          · cases heq
            exact Or.inl ⟨p, (hins_mem p).mpr (Or.inl rfl), hpk⟩
          · exact Or.inr ⟨p', hmem⟩

theorem allPhase1_spec :
    ∀ (l : List (Int × Pin)) (out : List Pin) (seen : List Int),
      NodupKeys l → (∀ kv ∈ l, kv.2.Number = kv.1) →
      out.Pairwise (fun a b => a.Number < b.Number) →
      (∀ q ∈ out, q.Number ∈ seen ∨ ∀ kv ∈ l, q.Number ≠ kv.1) →
      (allPhase1 l out seen).Pairwise (fun a b => a.Number < b.Number) ∧
      (∀ q, q ∈ allPhase1 l out seen ↔ q ∈ out ∨ ∃ k, (k, q) ∈ l ∧ k ∉ seen) := by
  intro l
  induction l with
  | nil =>
    intro out seen _ _ hsort _
    refine ⟨hsort, fun q => ?_⟩
    simp [allPhase1]
  | cons kv rest ih =>
    intro out seen hnd hkey hsort hok
    obtain ⟨k, p⟩ := kv
    have hpk : p.Number = k := hkey (k, p) (List.mem_cons_self _ _)
    have hnd' : (k :: rest.map Prod.fst).Nodup := hnd
    rw [allPhase1]
    by_cases hseen : p.Number ∈ seen
    · rw [if_pos hseen]
      obtain ⟨c1, c2⟩ := ih out seen
        (List.nodup_cons.mp hnd').2
        (fun kv h => hkey kv (List.mem_cons_of_mem _ h))
        hsort
        (by
          intro q hq
          rcases hok q hq with h | h
          · exact Or.inl h
          · exact Or.inr (fun kv hkv => h kv (List.mem_cons_of_mem _ hkv)))
      refine ⟨c1, fun q => ?_⟩
      rw [c2 q]
      constructor
      · rintro (hq | ⟨k', hk', hk'n⟩)
        · exact Or.inl hq
        · exact Or.inr ⟨k', List.mem_cons_of_mem _ hk', hk'n⟩
      · rintro (hq | ⟨k', hk', hk'n⟩)
        · exact Or.inl hq
        · rcases List.mem_cons.mp hk' with heq | hmem
          · cases heq
            exact absurd (hpk ▸ hseen) hk'n
          · exact Or.inr ⟨k', hmem, hk'n⟩
    · rw [if_neg hseen]
      have hfreshp : ∀ q ∈ out, Pin.Number q ≠ Pin.Number p := by
        intro q hq
        rcases hok q hq with h | h
        · intro hcon
          exact hseen (hcon ▸ h)
        · rw [hpk]
          exact h (k, p) (List.mem_cons_self _ _)
      obtain ⟨hins_sort, hins_mem⟩ := insertPinByNumber_spec out p hsort hfreshp
      obtain ⟨c1, c2⟩ := ih (insertPinByNumber out p) seen
        (List.nodup_cons.mp hnd').2
        (fun kv h => hkey kv (List.mem_cons_of_mem _ h))
        hins_sort
        (by
          intro q hq
          rcases (hins_mem q).mp hq with rfl | hq'
          · refine Or.inr ?_
            intro kv hkv hcon
            exact (List.nodup_cons.mp hnd').1
              ((hpk ▸ hcon) ▸ List.mem_map_of_mem Prod.fst hkv)
          · rcases hok q hq' with h | h
            · exact Or.inl h
            · exact Or.inr (fun kv hkv => h kv (List.mem_cons_of_mem _ hkv)))
      refine ⟨c1, fun q => ?_⟩
      rw [c2 q]
      rw [hins_mem q]
      constructor
      · rintro ((rfl | hq) | ⟨k', hk', hk'n⟩)
        · exact Or.inr ⟨k, ⟨List.mem_cons_self _ _, hpk ▸ hseen⟩⟩
        · exact Or.inl hq
        · exact Or.inr ⟨k', List.mem_cons_of_mem _ hk', hk'n⟩
      · rintro (hq | ⟨k', hk', hk'n⟩)
        · exact Or.inl (Or.inr hq)
        · rcases List.mem_cons.mp hk' with heq | hmem
          · cases heq
            exact Or.inl (Or.inl rfl)
          · exact Or.inr ⟨k', hmem, hk'n⟩

/-- **C4.** For every registry state (with the Go-map invariants: distinct
keys, and each pin stored under its own number), `All()` returns a sequence
strictly sorted ascending by pin number — hence each number appears at most
once — and a pin belongs to the output exactly when it is the tier-0 pin
registered under its number, or the tier-1 pin registered under a number
absent from tier 0: every registered number is represented exactly once and
the preferred tier wins on numbers present in both tiers. -/
theorem all_sorted_dedup_preferred (s : State)
    (h0 : NodupKeys s.byNumber0) (h1 : NodupKeys s.byNumber1)
    (hk0 : ∀ kv ∈ s.byNumber0, kv.2.Number = kv.1)
    (hk1 : ∀ kv ∈ s.byNumber1, kv.2.Number = kv.1) :
    (All s).Pairwise (fun a b => a.Number < b.Number) ∧
      ((All s).map Pin.Number).Nodup ∧
      ∀ q, q ∈ All s ↔
        (lookupL s.byNumber0 q.Number = some q ∨
          (lookupL s.byNumber0 q.Number = none ∧
            lookupL s.byNumber1 q.Number = some q)) := by
  obtain ⟨p1, p2, p3⟩ := allPhase0_spec s.byNumber0 [] [] h0 hk0 (List.Pairwise.nil)
    (by intro q hq; cases hq) (by intro x; simp)
  obtain ⟨q1, q2⟩ := allPhase1_spec s.byNumber1
    (allPhase0 s.byNumber0 ([], [])).1 (allPhase0 s.byNumber0 ([], [])).2 h1 hk1 p1
    (by
      intro q hq
      rcases (p2 q).mp hq with h | ⟨k, hk⟩
      · cases h
      · refine Or.inl ((p3 q.Number).mpr ?_)
        exact Or.inr ⟨q, hk0 (k, q) hk ▸ hk⟩)
  have hAll : All s = allPhase1 s.byNumber1 (allPhase0 s.byNumber0 ([], [])).1
      (allPhase0 s.byNumber0 ([], [])).2 := rfl
  rw [hAll]
  refine ⟨q1, ?_, fun q => ?_⟩
  · exact (List.pairwise_map.mpr q1).nodup
  · rw [q2 q]
    constructor
    · rintro (hq | ⟨k, hk, hkn⟩)
      · rcases (p2 q).mp hq with h | ⟨k, hk⟩
        · cases h
        · have hkq : k = q.Number := (hk0 (k, q) hk).symm
          subst hkq
          exact Or.inl (mem_lookupL h0 hk)
      · have hkq : k = q.Number := (hk1 (k, q) hk).symm
        subst hkq
        refine Or.inr ⟨?_, mem_lookupL h1 hk⟩
        rw [lookupL_eq_none]
        intro hmem
        obtain ⟨v, hv⟩ := (keys_mem_iff _ _).mp hmem
        exact hkn ((p3 q.Number).mpr (Or.inr ⟨v, hv⟩))
    · rintro (hq | ⟨hnone, hq⟩)
      · exact Or.inl ((p2 q).mpr (Or.inr ⟨q.Number, lookupL_mem hq⟩))
      · refine Or.inr ⟨q.Number, lookupL_mem hq, ?_⟩
        intro hseen
        rcases (p3 q.Number).mp hseen with ⟨q', hq', _⟩ | ⟨p', hp'⟩
        · cases hq'
        · rw [lookupL_eq_none] at hnone
          exact hnone ((keys_mem_iff _ _).mpr ⟨p', hp'⟩)

theorem lookupL_isSome {α β : Type} [DecidableEq α] {l : List (α × β)} {k : α} :
    (lookupL l k).isSome ↔ k ∈ l.map Prod.fst := by
  cases h : lookupL l k with
  | none =>
    simp only [Option.isSome_none]
    rw [lookupL_eq_none] at h
    simp [h]
  | some v =>
    simp only [Option.isSome_some]
    have := lookupL_mem h
    simp only [true_iff]
    exact List.mem_map_of_mem Prod.fst this

/-- Found-stability: evolution only memoizes records (turning recursion
into an immediate hit), so a name that resolves from `s` still resolves
from any state `s` evolves to, within the same recursion budget. -/
theorem getByName_found_stable :
    ∀ (fuel : Nat) (s : State) (x : String) (r : Pin) (s' t : State),
      Evolves s t → getByNameF fuel s x = .found r s' →
      ∃ r' t', getByNameF fuel t x = .found r' t' := by
  intro fuel
  induction fuel with
  | zero =>
    intro s x r s' t he h
    obtain ⟨e1, e2, e3, e4, e5, e6⟩ := he
    rw [getByNameF] at h
    cases h0 : lookupL s.byName0 x <;> simp only [h0] at h
    case some p =>
      refine ⟨p, t, ?_⟩
      rw [getByNameF, e1]
      simp only [h0]
    case none =>
    cases h1 : lookupL s.byName1 x <;> simp only [h1] at h
    case some p =>
      refine ⟨p, t, ?_⟩
      rw [getByNameF, e1, e2]
      simp only [h0, h1]
    case none =>
    cases h2 : lookupL s.byAlias x <;> simp only [h2] at h
    case some rec =>
      cases h5 : rec.resolved <;> simp only [h5] at h
      · cases h
      · rename_i p
        cases h
        obtain ⟨rec', hrec', hdest, hres⟩ := e6 x rec h2
        refine ⟨.pinAliasR x rec'.dest p, t, ?_⟩
        rw [getByNameF, e1, e2]
        simp only [h0, h1, hrec', hres p h5]
    case none =>
      cases h3 : Atoi x <;> simp only [h3] at h
      · cases h
      case some i =>
        cases h4 : getByNumber s i <;> simp only [h4] at h
        · cases h
        case some p =>
          have h2t : lookupL t.byAlias x = none := by
            rw [lookupL_eq_none, e5, ← lookupL_eq_none]
            exact h2
          have h4t : getByNumber t i = some p := by
            rw [getByNumber, e3, e4]
            rw [getByNumber] at h4
            exact h4
          refine ⟨p, t, ?_⟩
          rw [getByNameF, e1, e2]
          simp only [h0, h1, h2t, h3, h4t]
  | succ n ih =>
    intro s x r s' t he h
    obtain ⟨e1, e2, e3, e4, e5, e6⟩ := he
    rw [getByNameF] at h
    cases h0 : lookupL s.byName0 x <;> simp only [h0] at h
    case some p =>
      refine ⟨p, t, ?_⟩
      rw [getByNameF, e1]
      simp only [h0]
    case none =>
    cases h1 : lookupL s.byName1 x <;> simp only [h1] at h
    case some p =>
      refine ⟨p, t, ?_⟩
      rw [getByNameF, e1, e2]
      simp only [h0, h1]
    case none =>
    cases h2 : lookupL s.byAlias x <;> simp only [h2] at h
    case some rec =>
      obtain ⟨rec', hrec', hdest, hres⟩ := e6 x rec h2
      cases h5 : rec.resolved <;> simp only [h5] at h
      · cases h6 : getByNameF n s rec.dest <;> simp only [h6] at h
        case found r₀ s₁ =>
          cases h
          cases h5' : rec'.resolved
          · obtain ⟨r', t₁, hfound'⟩ :=
              ih s rec.dest r₀ s₁ t ⟨e1, e2, e3, e4, e5, e6⟩ h6
            refine ⟨.pinAliasR x rec'.dest r',
              updateAlias t₁ x ⟨rec'.dest, some r'⟩, ?_⟩
            rw [getByNameF, e1, e2]
            simp only [h0, h1, hrec', h5', hdest, hfound']
          · rename_i p
            refine ⟨.pinAliasR x rec'.dest p, t, ?_⟩
            rw [getByNameF, e1, e2]
            simp only [h0, h1, hrec', h5']
        case absent s₁ => cases h
        case out => cases h
      · rename_i p
        cases h
        refine ⟨.pinAliasR x rec'.dest p, t, ?_⟩
        rw [getByNameF, e1, e2]
        simp only [h0, h1, hrec', hres p h5]
    case none =>
      cases h3 : Atoi x <;> simp only [h3] at h
      · cases h
      case some i =>
        cases h4 : getByNumber s i <;> simp only [h4] at h
        · cases h
        case some p =>
          have h2t : lookupL t.byAlias x = none := by
            rw [lookupL_eq_none, e5, ← lookupL_eq_none]
            exact h2
          have h4t : getByNumber t i = some p := by
            rw [getByNumber, e3, e4]
            rw [getByNumber] at h4
            exact h4
          refine ⟨p, t, ?_⟩
          rw [getByNameF, e1, e2]
          simp only [h0, h1, h2t, h3, h4t]

theorem aliasesLoop_invariant :
    ∀ (ks : List String) (fuel : Nat) (t : State) (acc : List Pin) (s : State)
      (out : List Pin) (s' : State),
      aliasesLoop fuel t ks acc = some (out, s') →
      Evolves s t →
      ks.Nodup →
      (∀ q ∈ acc, q.Name ∉ ks) →
      acc.Pairwise (fun a b => a.Name < b.Name) →
      (∀ q ∈ acc, ∃ d r, q = .pinAliasR q.Name d r ∧
        lookupL t.byAlias q.Name = some ⟨d, some r⟩) →
      (∀ a, ResolvableF fuel s a → (∃ q ∈ acc, q.Name = a) ∨ a ∈ ks) →
      out.Pairwise (fun a b => a.Name < b.Name) ∧
      (∀ q ∈ out, ∃ d r, q = .pinAliasR q.Name d r ∧
        lookupL s'.byAlias q.Name = some ⟨d, some r⟩) ∧
      (∀ a, ResolvableF fuel s a → ∃ q ∈ out, q.Name = a) ∧
      Evolves s s' := by
  intro ks
  induction ks with
  | nil =>
    intro fuel t acc s out s' h he _ _ hI1 hI2 hI4
    rw [aliasesLoop] at h
    simp only [Option.some.injEq, Prod.mk.injEq] at h
    obtain ⟨ho, hs⟩ := h
    subst ho
    subst hs
    refine ⟨hI1, hI2, ?_, he⟩
    intro a hres
    rcases hI4 a hres with hacc | hmem
    · exact hacc
    · cases hmem
  | cons a rest ih =>
    intro fuel t acc s out s' h he hnd hI3 hI1 hI2 hI4
    have hnd' := List.nodup_cons.mp hnd
    rw [aliasesLoop] at h
    cases hla : lookupL t.byAlias a <;> simp only [hla] at h
    case none =>
      refine ih fuel t acc s out s' h he hnd'.2
        (fun q hq => fun hmem => hI3 q hq (List.mem_cons_of_mem _ hmem)) hI1 hI2 ?_
      intro a₀ hres
      rcases hI4 a₀ hres with hacc | hmem
      · exact Or.inl hacc
      · rcases List.mem_cons.mp hmem with rfl | hrest
        · exfalso
          obtain ⟨rec, hrec, _⟩ := hres
          obtain ⟨rec', hrec', _, _⟩ := he.2.2.2.2.2 a₀ rec hrec
          rw [hrec'] at hla
          cases hla
        · exact Or.inr hrest
    case some rec =>
      have hfreshname : ∀ (d₀ : String) (r₀ : Pin), ∀ q ∈ acc,
          Pin.Name q ≠ Pin.Name (.pinAliasR a d₀ r₀) := by
        intro d₀ r₀ q hq hcon
        exact hI3 q hq (hcon ▸ List.mem_cons_self _ _)
      cases hres0 : rec.resolved <;> simp only [hres0] at h
      case some p =>
        have hrec_eq : rec = ⟨rec.dest, some p⟩ := by
          cases rec
          cases hres0
          rfl
        obtain ⟨hins_sort, hins_mem⟩ :=
          insertPinByName_spec acc (.pinAliasR a rec.dest p) hI1
            (hfreshname rec.dest p)
        refine ih fuel t _ s out s' h he hnd'.2 ?_ hins_sort ?_ ?_
        · intro q hq
          rcases (hins_mem q).mp hq with rfl | hq'
          · exact hnd'.1
          · exact fun hmem => hI3 q hq' (List.mem_cons_of_mem _ hmem)
        · intro q hq
          rcases (hins_mem q).mp hq with rfl | hq'
          · refine ⟨rec.dest, p, rfl, ?_⟩
            rw [← hrec_eq]
            exact hla
          · exact hI2 q hq'
        · intro a₀ hres
          rcases hI4 a₀ hres with hacc | hmem
          · obtain ⟨q, hq, hqa⟩ := hacc
            exact Or.inl ⟨q, (hins_mem q).mpr (Or.inr hq), hqa⟩
          · rcases List.mem_cons.mp hmem with rfl | hrest
            · exact Or.inl ⟨.pinAliasR a₀ rec.dest p,
                (hins_mem _).mpr (Or.inl rfl), rfl⟩
            · exact Or.inr hrest
      case none =>
        have hrect : lookupL t.byAlias a = some ⟨rec.dest, none⟩ := by
          have hrec_eq : rec = ⟨rec.dest, none⟩ := by
            cases rec
            cases hres0
            rfl
          rw [← hrec_eq]
          exact hla
        cases hgn : getByNameF fuel t rec.dest <;> simp only [hgn] at h
        case found r t₁ =>
          have het₁ : Evolves t t₁ := (getByName_state fuel t rec.dest).2 r t₁ hgn
          have het₂ : Evolves t (updateAlias t₁ a ⟨rec.dest, some r⟩) :=
            evolves_update r het₁ hrect
          have he' : Evolves s (updateAlias t₁ a ⟨rec.dest, some r⟩) :=
            evolves_trans he het₂
          obtain ⟨hins_sort, hins_mem⟩ :=
            insertPinByName_spec acc (.pinAliasR a rec.dest r) hI1
              (hfreshname rec.dest r)
          refine ih fuel _ _ s out s' h he' hnd'.2 ?_ hins_sort ?_ ?_
          · intro q hq
            rcases (hins_mem q).mp hq with rfl | hq'
            · exact hnd'.1
            · exact fun hmem => hI3 q hq' (List.mem_cons_of_mem _ hmem)
          · intro q hq
            rcases (hins_mem q).mp hq with rfl | hq'
            · refine ⟨rec.dest, r, rfl, ?_⟩
              have hkey : (lookupL t₁.byAlias a).isSome := by
                rw [lookupL_isSome, het₁.2.2.2.2.1, ← lookupL_isSome, hla]
                rfl
              exact lookup_updateL_self t₁.byAlias a ⟨rec.dest, some r⟩ hkey
            · obtain ⟨d, r₀, hq1, hq2⟩ := hI2 q hq'
              exact ⟨d, r₀, hq1, evolves_resolved het₂ hq2⟩
          · intro a₀ hres
            rcases hI4 a₀ hres with hacc | hmem
            · obtain ⟨q, hq, hqa⟩ := hacc
              exact Or.inl ⟨q, (hins_mem q).mpr (Or.inr hq), hqa⟩
            · rcases List.mem_cons.mp hmem with rfl | hrest
              · exact Or.inl ⟨.pinAliasR a₀ rec.dest r,
                  (hins_mem _).mpr (Or.inl rfl), rfl⟩
              · exact Or.inr hrest
        case absent t₁ =>
          have ht₁ : t₁ = t := (getByName_state fuel t rec.dest).1 t₁ hgn
          rw [ht₁] at h
          refine ih fuel t acc s out s' h he hnd'.2
            (fun q hq => fun hmem => hI3 q hq (List.mem_cons_of_mem _ hmem)) hI1 hI2 ?_
          intro a₀ hres
          rcases hI4 a₀ hres with hacc | hmem
          · exact Or.inl hacc
          · rcases List.mem_cons.mp hmem with rfl | hrest
            · exfalso
              obtain ⟨rec_s, hrec_s, hcase⟩ := hres
              obtain ⟨rec', hrec', hdest, hresv⟩ := he.2.2.2.2.2 a₀ rec_s hrec_s
              have hrec'_eq : rec' = ⟨rec.dest, none⟩ := by
                rw [hrec'] at hrect
                injection hrect with hh
              rcases hcase with ⟨p, hp⟩ | ⟨r₁, s₁, hfound⟩
              · have hcon := hresv p hp
                rw [hrec'_eq] at hcon
                cases hcon
              · obtain ⟨r', t', hfound'⟩ :=
                  getByName_found_stable fuel s rec_s.dest r₁ s₁ t he hfound
                have hdd : rec_s.dest = rec.dest := by
                  rw [← hdest, hrec'_eq]
                rw [hdd, hgn] at hfound'
                cases hfound'
            · exact Or.inr hrest
        case out => cases h

/-- **C5.** For every registry state (with the Go-map key invariant) and any
completed run of `Aliases()` (`AliasesF` returning a value, i.e. no alias
resolution recursed unboundedly): the output is strictly sorted ascending
lexicographically by alias name; every entry is the alias's own wrapper —
its `Name()` is the alias name, a key of the alias table — referencing the
resolved real pin recorded for it; every alias whose destination currently
resolves (`ResolvableF`: already memoized, or freshly resolvable from the
pre-state within the call's recursion budget) is present; and any alias
left unresolved at the end of the call is omitted (resolution failure is
not an error).  The result can only grow as more pins register, since
entries cover exactly the currently-resolvable aliases. -/
theorem c5_aliases_sorted_resolved (fuel : Nat) (s : State) (out : List Pin) (s' : State)
    (hnd : NodupKeys s.byAlias)
    (h : AliasesF fuel s = some (out, s')) :
    out.Pairwise (fun a b => a.Name < b.Name) ∧
    (∀ q ∈ out, q.Name ∈ s.byAlias.map Prod.fst ∧ ∃ d r, q = .pinAliasR q.Name d r ∧
      lookupL s'.byAlias q.Name = some ⟨d, some r⟩) ∧
    (∀ a, ResolvableF fuel s a → ∃ q ∈ out, q.Name = a) ∧
    (∀ a, (∀ rec, lookupL s'.byAlias a = some rec → rec.resolved = none) →
      ∀ q ∈ out, q.Name ≠ a) := by
  rw [AliasesF] at h
  obtain ⟨c1, c2, c3, c4⟩ := aliasesLoop_invariant (s.byAlias.map Prod.fst) fuel s [] s
    out s' h (evolves_refl s) hnd (by intro q hq; cases hq) List.Pairwise.nil
    (by intro q hq; cases hq)
    (by
      intro a hres
      obtain ⟨rec, hrec, _⟩ := hres
      refine Or.inr ?_
      rw [← lookupL_isSome, hrec]
      rfl)
  refine ⟨c1, ?_, c3, ?_⟩
  · intro q hq
    obtain ⟨d, r, h1, h2⟩ := c2 q hq
    refine ⟨?_, d, r, h1, h2⟩
    rw [← c4.2.2.2.2.1, ← lookupL_isSome, h2]
    rfl
  · intro a ha q hq hqa
    obtain ⟨d, r, h1, h2⟩ := c2 q hq
    rw [hqa] at h2
    cases ha ⟨d, some r⟩ h2

/-- **C2.** For every registry state and name, `getByName` resolves through
exactly the ordered chain described by the spec (`byNameChainSpec`, written
from the claim's words), and a miss returns absent with the registry left
exactly as it was — in particular nothing is memoized on failure. -/
theorem c2_byname_follows_chain :
    ∀ (fuel : Nat) (s : State) (name : String),
      getByNameF fuel s name = byNameChainSpec fuel s name ∧
      (∀ s', getByNameF fuel s name = .absent s' → s' = s) := by
  have main : ∀ (fuel : Nat) (s : State) (name : String),
      getByNameF fuel s name = byNameChainSpec fuel s name := by
    intro fuel
    induction fuel with
    | zero =>
      intro s name
      rw [getByNameF, byNameChainSpec, nameTierHit, numericHit]
      cases h0 : lookupL s.byName0 name <;> simp only [h0]
      all_goals cases h1 : lookupL s.byName1 name <;> simp only [h1]
      all_goals cases h2 : lookupL s.byAlias name <;> simp only [h2]
      all_goals cases h3 : Atoi name <;> simp only [h3]
    | succ n ih =>
      intro s name
      rw [getByNameF, byNameChainSpec, nameTierHit, numericHit]
      cases h0 : lookupL s.byName0 name <;> simp only [h0]
      all_goals cases h1 : lookupL s.byName1 name <;> simp only [h1]
      all_goals cases h2 : lookupL s.byAlias name <;> simp only [h2]
      · cases h3 : Atoi name <;> simp only [h3]
      · rename_i rec
        cases h5 : rec.resolved <;> simp only [h5]
        rw [ih s rec.dest]
  intro fuel s name
  exact ⟨main fuel s name, fun s' h => (getByName_state fuel s name).1 s' h⟩

theorem tierIdx_eq (preferred : Bool) :
    (if preferred then 0 else 1) = tierIdx preferred := rfl

theorem otherIdx_eq (preferred : Bool) :
    (if preferred then 1 else 0) = otherIdx preferred := rfl

theorem str_len_zero (t : String) : t.length = 0 ↔ t = "" := by
  constructor
  · intro h
    cases t with
    | mk data =>
      have hd : data = [] := List.length_eq_zero.mp h
      subst hd
      rfl
  · intro h
    subst h
    rfl

/-- **C1.** For every state, pin and tier flag, `Register` performs exactly
the spec's ordered checks (a)–(h): it fails with the message of the first
violated check — the eight checks carrying eight distinct errors — leaving
the state unchanged (an error result carries no new state), and when every
check passes it returns the state with the pin inserted into both the
number map and the name map of the selected tier. -/
theorem c1_register_checks (s : State) (p : Pin) (preferred : Bool) :
    Register s p preferred =
      Except.mapError (msgOf s p preferred) (registerSpec s p preferred) := by
  simp only [Register, registerSpec, str_len_zero, tierIdx_eq, otherIdx_eq]
  by_cases h1 : p.Name = ""
  · simp [h1, Except.mapError, msgOf]
  · simp only [if_neg h1]
    by_cases h2 : (Atoi p.Name).isSome
    · simp [h2, Except.mapError, msgOf, h1]
    · simp only [if_neg h2]
      by_cases h3 : p.Number < 0
      · simp [h3, Except.mapError, msgOf, h1, h2]
      · simp only [if_neg h3]
        cases h4 : lookupL (byNumberT s (tierIdx preferred)) p.Number <;>
          simp only [h4]
        · cases h5 : lookupL (byNameT s (tierIdx preferred)) p.Name <;>
            simp only [h5]
          · cases hrp : p.isRealPin
            · simp only [Bool.false_eq_true, if_false]
              cases h6 : lookupL s.byAlias p.Name <;> simp only [h6]
              · cases h7 : lookupL (byNameT s (otherIdx preferred)) p.Name <;>
                  simp only [h7]
                · simp [Except.mapError, insertBothT]
                · rename_i orig
                  by_cases h8 : p.Number ≠ orig.Number
                  · simp only [if_pos h8]
                    simp [Except.mapError, msgOf, h7]
                  · simp only [if_neg h8]
                    simp [Except.mapError, insertBothT]
              · simp [Except.mapError, msgOf, h6]
            · simp [Except.mapError, msgOf]
          · simp [Except.mapError, msgOf, h5]
        · simp [Except.mapError, msgOf, h4]

theorem getByName_hit0 {s : State} {x : String} {p : Pin}
    (h : lookupL s.byName0 x = some p) :
    ∀ fuel, getByNameF fuel s x = .found p s := by
  intro fuel
  rw [getByNameF]
  simp only [h]

theorem getByName_hit1 {s : State} {x : String} {p : Pin}
    (h0 : lookupL s.byName0 x = none) (h1 : lookupL s.byName1 x = some p) :
    ∀ fuel, getByNameF fuel s x = .found p s := by
  intro fuel
  rw [getByNameF]
  simp only [h0, h1]

theorem getByName_numeric {s : State} {x : String} {n : Int}
    (h0 : lookupL s.byName0 x = none) (h1 : lookupL s.byName1 x = none)
    (ha : lookupL s.byAlias x = none) (hn : Atoi x = some n) :
    ∀ fuel, getByNameF fuel s x =
      match getByNumber s n with
      | some p => .found p s
      | none => .absent s := by
  intro fuel
  rw [getByNameF]
  simp only [h0, h1, ha, hn]

/-- **C3.** The source accepts the self-referential alias
`RegisterAlias("a", "a")`, and `ByName("a")` on the resulting registry
exhausts every fuel bound: the recursion in `getByName` never produces a
result, i.e. the source recurses forever on a cyclic alias chain instead of
detecting the cycle and returning absent as the spec requires. -/
theorem c3_alias_cycle_diverges :
    RegisterAlias emptyState "a" "a" = .ok cycleState ∧
    ∀ fuel, getByNameF fuel cycleState "a" = .out := by
  constructor
  · rfl
  · intro fuel
    induction fuel with
    | zero => decide
    | succ n ih =>
      have e0 : lookupL cycleState.byName0 "a" = none := rfl
      have e1 : lookupL cycleState.byName1 "a" = none := rfl
      have e2 : lookupL cycleState.byAlias "a" = some ⟨"a", none⟩ := by decide
      rw [getByNameF]
      simp only [e0, e1, e2]
      rw [ih]

/-- **C6.** If `RegisterAlias(a, d)` succeeded, producing state `s'`, then:
repeating the identical call succeeds and returns the state unchanged; the
stored record for `a` carries destination `d`; and any call with a
different destination `d'` fails (the stored destination is untouched,
since a failing call returns no new state). -/
theorem c6_register_alias_idempotent (s s' : State) (a d : String)
    (h : RegisterAlias s a d = .ok s') :
    RegisterAlias s' a d = .ok s' ∧
    (∃ rec, lookupL s'.byAlias a = some rec ∧ rec.dest = d) ∧
    (∀ d', d' ≠ d → ∃ e, RegisterAlias s' a d' = .error e) := by
  rw [RegisterAlias] at h
  by_cases h1 : a.length = 0
  · rw [if_pos h1] at h
    cases h
  rw [if_neg h1] at h
  by_cases h2 : d.length = 0
  · rw [if_pos h2] at h
    cases h
  rw [if_neg h2] at h
  by_cases h3 : (Atoi a).isSome
  · rw [if_pos h3] at h
    cases h
  rw [if_neg h3] at h
  have hcore : ∃ rec, lookupL s'.byAlias a = some rec ∧ rec.dest = d := by
    cases h4 : lookupL s.byAlias a <;> simp only [h4] at h
    case none =>
      cases h
      exact ⟨⟨d, none⟩, by rw [lookupL, if_pos rfl], rfl⟩
    case some orig =>
      by_cases h5 : orig.dest = d
      · rw [if_pos h5] at h
        cases h
        exact ⟨orig, h4, h5⟩
      · rw [if_neg h5] at h
        cases h
  obtain ⟨rec, hrec, hdest⟩ := hcore
  refine ⟨?_, ⟨rec, hrec, hdest⟩, ?_⟩
  · rw [RegisterAlias, if_neg h1, if_neg h2, if_neg h3]
    simp only [hrec]
    rw [if_pos hdest]
  · intro d' hne
    rw [RegisterAlias, if_neg h1]
    by_cases hd' : d'.length = 0
    · rw [if_pos hd']
      exact ⟨_, rfl⟩
    · rw [if_neg hd', if_neg h3]
      simp only [hrec]
      rw [if_neg (by rw [hdest]; exact fun hc => hne hc.symm)]
      exact ⟨_, rfl⟩

/-- Witness for C6 at the concrete run `RegisterAlias("a", "b")` on the
fresh registry, with `d' = "c"` for the failing redefinition. -/
theorem c6_register_alias_idempotent_witness :
    RegisterAlias aliasStateAB "a" "b" = .ok aliasStateAB ∧
    (∃ rec, lookupL aliasStateAB.byAlias "a" = some rec ∧ rec.dest = "b") ∧
    (∃ e, RegisterAlias aliasStateAB "a" "c" = .error e) := by
  have h := c6_register_alias_idempotent emptyState aliasStateAB "a" "b" rfl
  exact ⟨h.1, h.2.1, h.2.2 "c" (by decide)⟩

/-- **C7.** Aliases may be registered before their destination exists, and
resolution follows multi-hop chains: after `RegisterAlias("a","b")`,
`RegisterAlias("b","c")` and registering the pin named "c", `ByName("a")`
succeeds and returns a handle whose number is pin "c"'s number and whose
transitive real pin is exactly pin "c". -/
theorem c7_alias_lazy_multihop :
    RegisterAlias emptyState "a" "b" = .ok c7s1 ∧
    RegisterAlias c7s1 "b" "c" = .ok c7s2 ∧
    Register c7s2 pinC true = .ok c7s3 ∧
    getByNameF 2 c7s3 "a" = .found c7w c7s4 ∧
    c7w.Name = "a" ∧ c7w.Number = 3 ∧ c7w.rootReal = pinC :=
  ⟨rfl, rfl, rfl, by decide, rfl, rfl, rfl⟩

/-- Witness for C4 on a concrete two-tier registry sharing the number 5. -/
theorem all_sorted_dedup_preferred_witness :
    (NodupKeys sW4.byNumber0 ∧ NodupKeys sW4.byNumber1 ∧
      (∀ kv ∈ sW4.byNumber0, kv.2.Number = kv.1) ∧
      (∀ kv ∈ sW4.byNumber1, kv.2.Number = kv.1)) ∧
    ((All sW4).Pairwise (fun a b => a.Number < b.Number) ∧
      ((All sW4).map Pin.Number).Nodup ∧
      ∀ q, q ∈ All sW4 ↔
        (lookupL sW4.byNumber0 q.Number = some q ∨
          (lookupL sW4.byNumber0 q.Number = none ∧
            lookupL sW4.byNumber1 q.Number = some q))) :=
  ⟨⟨by decide, by decide, by decide, by decide⟩,
    all_sorted_dedup_preferred sW4 (by decide) (by decide) (by decide) (by decide)⟩

/-- Witness for C5 on `sW5`, whose pre-state has no memoized alias: the two
freshly-resolvable aliases appear, sorted by alias name, and the
unresolvable one is omitted. -/
theorem c5_aliases_sorted_resolved_witness :
    (NodupKeys sW5.byAlias ∧ AliasesF 5 sW5 = some (outW5, sW5f)) ∧
    (outW5.Pairwise (fun a b => a.Name < b.Name) ∧
     (∀ q ∈ outW5, q.Name ∈ sW5.byAlias.map Prod.fst ∧ ∃ d r,
       q = .pinAliasR q.Name d r ∧
       lookupL sW5f.byAlias q.Name = some ⟨d, some r⟩) ∧
     (∀ a, ResolvableF 5 sW5 a → ∃ q ∈ outW5, q.Name = a) ∧
     (∀ a, (∀ rec, lookupL sW5f.byAlias a = some rec → rec.resolved = none) →
       ∀ q ∈ outW5, q.Name ≠ a)) :=
  ⟨⟨by decide, by decide⟩,
    c5_aliases_sorted_resolved 5 sW5 outW5 sW5f (by decide) (by decide)⟩

/-- Witness for C2 at a concrete input: the chain equation holds and the
absent result leaves the empty registry unchanged. -/
theorem c2_byname_follows_chain_witness :
    getByNameF 0 emptyState "nosuch" = byNameChainSpec 0 emptyState "nosuch" ∧
    emptyState = emptyState :=
  ⟨(c2_byname_follows_chain 0 emptyState "nosuch").1,
    (c2_byname_follows_chain 0 emptyState "nosuch").2 emptyState (by decide)⟩

/-- **C8, counterexample.** Two valid registrations with distinct
`(tier, number, name)` triples — `(0, 5, "x")` then `(1, 5, "y")`, both
accepted — after which `ByName("y")` returns the tier-1 pin `py` while
`ByName("5")` (the decimal string of `py`'s number) returns the tier-0 pin
`px ≠ py`: the two lookups do not return the same pin, refuting the claim
as stated. -/
theorem c8_counterexample :
    Register emptyState px true = .ok c8s1 ∧
    Register c8s1 py false = .ok c8s2 ∧
    getByNameF 0 c8s2 "y" = .found py c8s2 ∧
    getByNameF 0 c8s2 "5" = .found px c8s2 ∧
    py ≠ px :=
  ⟨rfl, rfl, by decide, by decide, by decide⟩

theorem getByNumber_hit0 {s : State} {n : Int} {q : Pin}
    (h : lookupL s.byNumber0 n = some q) : getByNumber s n = some q := by
  rw [getByNumber]
  simp only [h]

theorem getByNumber_miss0 {s : State} {n : Int}
    (h : lookupL s.byNumber0 n = none) :
    getByNumber s n = lookupL s.byNumber1 n := by
  rw [getByNumber]
  simp only [h]

/-- **C8, amended.** In a registry with the reachable-state invariants
(distinct keys; names and alias keys never parse as integers; every
name-map entry also present in its tier's number map under its number;
cross-tier number agreement for a shared name), for each registered pin,
`ByName` on the registered name and `ByName` on any string that parses to
the pin's number (in particular its decimal string) return one and the same
pin — provided that a pin registered only in the limited tier, under a name
absent from the preferred tier, has its number absent from the preferred
tier's number map.  (Without that proviso the name lookup returns the
limited-tier pin while the number lookup returns the preferred-tier pin,
as the counterexample shows.) -/
theorem c8_amended_name_number_agree (s : State) (x : String) (p : Pin)
    (hnd0 : NodupKeys s.byName0) (hnd1 : NodupKeys s.byName1)
    (hnn0 : ∀ kv ∈ s.byName0, Atoi kv.1 = none)
    (hnn1 : ∀ kv ∈ s.byName1, Atoi kv.1 = none)
    (hna : ∀ kv ∈ s.byAlias, Atoi kv.1 = none)
    (hcoh0 : ∀ kv ∈ s.byName0, lookupL s.byNumber0 kv.2.Number = some kv.2)
    (hcoh1 : ∀ kv ∈ s.byName1, lookupL s.byNumber1 kv.2.Number = some kv.2)
    (hcross : ∀ y p0 p1, lookupL s.byName0 y = some p0 →
      lookupL s.byName1 y = some p1 → p0.Number = p1.Number)
    (hreg : (x, p) ∈ s.byName0 ∨ (x, p) ∈ s.byName1)
    (hside : (x, p) ∈ s.byName1 → lookupL s.byName0 x = none →
      lookupL s.byNumber0 p.Number = none) :
    ∃ q, (∀ fuel, getByNameF fuel s x = .found q s) ∧
      (∀ str fuel, Atoi str = some p.Number → getByNameF fuel s str = .found q s) := by
  have hnumside : ∀ q, getByNumber s p.Number = some q →
      ∀ str fuel, Atoi str = some p.Number → getByNameF fuel s str = .found q s := by
    intro q hq str fuel hstr
    have e0 := numeric_not_key hnn0 hstr
    have e1 := numeric_not_key hnn1 hstr
    have ea := numeric_not_key hna hstr
    rw [getByName_numeric e0 e1 ea hstr fuel, hq]
  rcases hreg with hx0 | hx1
  · have hl0 : lookupL s.byName0 x = some p := mem_lookupL hnd0 hx0
    have hq0 : lookupL s.byNumber0 p.Number = some p := hcoh0 (x, p) hx0
    exact ⟨p, getByName_hit0 hl0, hnumside p (getByNumber_hit0 hq0)⟩
  · have hl1 : lookupL s.byName1 x = some p := mem_lookupL hnd1 hx1
    cases h0 : lookupL s.byName0 x with
    | some p₀ =>
      have heq : p₀.Number = p.Number := hcross x p₀ p h0 hl1
      have hq0 : lookupL s.byNumber0 p₀.Number = some p₀ := hcoh0 (x, p₀) (lookupL_mem h0)
      refine ⟨p₀, getByName_hit0 h0, hnumside p₀ ?_⟩
      rw [← heq]
      exact getByNumber_hit0 hq0
    | none =>
      have hn0 : lookupL s.byNumber0 p.Number = none := hside hx1 h0
      have hq1 : lookupL s.byNumber1 p.Number = some p := hcoh1 (x, p) hx1
      refine ⟨p, getByName_hit1 h0 hl1, hnumside p ?_⟩
      rw [getByNumber_miss0 hn0]
      exact hq1

/-- Witness for the amended C8 on the one-pin registry `c8s1`. -/
theorem c8_amended_name_number_agree_witness :
    (("x", px) ∈ c8s1.byName0 ∨ ("x", px) ∈ c8s1.byName1) ∧
    Atoi "5" = some px.Number ∧
    (∃ q, (∀ fuel, getByNameF fuel c8s1 "x" = .found q c8s1) ∧
      (∀ str fuel, Atoi str = some px.Number →
        getByNameF fuel c8s1 str = .found q c8s1)) :=
  ⟨Or.inl (by decide), by decide,
    c8_amended_name_number_agree c8s1 "x" px (by decide) (by decide) (by decide)
      (by decide) (by decide) (by decide) (by decide)
      (fun y p0 p1 _ h1 => Option.noConfusion h1)
      (Or.inl (by decide))
      (fun h _ => absurd h (List.not_mem_nil _))⟩

/-- **C9.** The duplicate-number check of `Register` consults only the
selected tier: a registration whose name passes every check succeeds even
when its number is already present in the other tier under a different
name — no cross-tier number agreement is enforced when the names differ —
and, when the number is indeed present in the other tier, a subsequent
`ByName` on any string parsing to that number returns the pin stored in
the tier-0 number map (the new pin itself for a preferred registration,
the pre-existing tier-0 pin for a limited one). -/
theorem c9_cross_tier_number (s : State) (p : Pin) (preferred : Bool)
    (hname : ¬ p.Name = "")
    (hnum : Atoi p.Name = none)
    (hge : ¬ p.Number < 0)
    (hfn : lookupL (byNumberT s (tierIdx preferred)) p.Number = none)
    (hfm : lookupL (byNameT s (tierIdx preferred)) p.Name = none)
    (hbase : p.isRealPin = false)
    (hal : lookupL s.byAlias p.Name = none)
    (hother : lookupL (byNameT s (otherIdx preferred)) p.Name = none)
    (hnn0 : ∀ kv ∈ s.byName0, Atoi kv.1 = none)
    (hnn1 : ∀ kv ∈ s.byName1, Atoi kv.1 = none)
    (hna : ∀ kv ∈ s.byAlias, Atoi kv.1 = none) :
    Register s p preferred = .ok (insertBothT s (tierIdx preferred) p) ∧
    ((∃ q0, lookupL (byNumberT s (otherIdx preferred)) p.Number = some q0) →
      ∃ q, lookupL (insertBothT s (tierIdx preferred) p).byNumber0 p.Number = some q ∧
        (preferred = true → q = p) ∧
        ∀ str fuel, Atoi str = some p.Number →
          getByNameF fuel (insertBothT s (tierIdx preferred) p) str =
            .found q (insertBothT s (tierIdx preferred) p)) := by
  constructor
  · simp only [Register, str_len_zero, tierIdx_eq, otherIdx_eq]
    rw [if_neg hname]
    rw [if_neg (show ¬ (Atoi p.Name).isSome = true by simp [hnum])]
    rw [if_neg hge]
    simp only [hfn, hfm, hbase, Bool.false_eq_true, if_false, hal, hother]
    rfl
  · rintro ⟨q0, hq0⟩
    cases preferred
    · refine ⟨q0, ?_, ?_, ?_⟩
      · show lookupL s.byNumber0 p.Number = some q0
        exact hq0
      · intro hc
        cases hc
      · intro str fuel hstr
        have e0 : lookupL (insertBothT s (tierIdx false) p).byName0 str = none :=
          numeric_not_key (show ∀ kv ∈ s.byName0, Atoi kv.1 = none from hnn0) hstr
        have e1 : lookupL (insertBothT s (tierIdx false) p).byName1 str = none := by
          refine numeric_not_key ?_ hstr
          show ∀ kv ∈ (p.Name, p) :: s.byName1, Atoi kv.1 = none
          intro kv hkv
          rcases List.mem_cons.mp hkv with rfl | hmem
          · exact hnum
          · exact hnn1 kv hmem
        have ea : lookupL (insertBothT s (tierIdx false) p).byAlias str = none :=
          numeric_not_key (show ∀ kv ∈ s.byAlias, Atoi kv.1 = none from hna) hstr
        rw [getByName_numeric e0 e1 ea hstr fuel]
        have hq : getByNumber (insertBothT s (tierIdx false) p) p.Number = some q0 := by
          apply getByNumber_hit0
          show lookupL s.byNumber0 p.Number = some q0
          exact hq0
        rw [hq]
    · refine ⟨p, ?_, fun _ => rfl, ?_⟩
      · show lookupL ((p.Number, p) :: s.byNumber0) p.Number = some p
        rw [lookupL, if_pos rfl]
      · intro str fuel hstr
        have e0 : lookupL (insertBothT s (tierIdx true) p).byName0 str = none := by
          refine numeric_not_key ?_ hstr
          show ∀ kv ∈ (p.Name, p) :: s.byName0, Atoi kv.1 = none
          intro kv hkv
          rcases List.mem_cons.mp hkv with rfl | hmem
          · exact hnum
          · exact hnn0 kv hmem
        have e1 : lookupL (insertBothT s (tierIdx true) p).byName1 str = none :=
          numeric_not_key (show ∀ kv ∈ s.byName1, Atoi kv.1 = none from hnn1) hstr
        have ea : lookupL (insertBothT s (tierIdx true) p).byAlias str = none :=
          numeric_not_key (show ∀ kv ∈ s.byAlias, Atoi kv.1 = none from hna) hstr
        rw [getByName_numeric e0 e1 ea hstr fuel]
        have hq : getByNumber (insertBothT s (tierIdx true) p) p.Number = some p := by
          apply getByNumber_hit0
          show lookupL ((p.Number, p) :: s.byNumber0) p.Number = some p
          rw [lookupL, if_pos rfl]
        rw [hq]

/-- Witness for C9: `py` (number 5, tier 1) registers although `px` already
occupies number 5 in tier 0, and `ByName("5")` then returns `px`. -/
theorem c9_cross_tier_number_witness :
    Register c8s1 py false = .ok (insertBothT c8s1 (tierIdx false) py) ∧
    (∃ q, lookupL (insertBothT c8s1 (tierIdx false) py).byNumber0 py.Number = some q ∧
      (false = true → q = py) ∧
      ∀ str fuel, Atoi str = some py.Number →
        getByNameF fuel (insertBothT c8s1 (tierIdx false) py) str =
          .found q (insertBothT c8s1 (tierIdx false) py)) := by
  have h := c9_cross_tier_number c8s1 py false (by decide) (by decide) (by decide)
    (by decide) (by decide) (by decide) (by decide) (by decide) (by decide)
    (by decide) (by decide)
  exact ⟨h.1, h.2 ⟨px, by decide⟩⟩

/-- **C10.** When a name that is not a registered pin name is an alias whose
destination resolves, `ByName` returns the alias's wrapper — not the
destination pin: the handle's `Name()` is the alias's own name and its
`Real()` is the handle obtained by resolving the destination (the memoized
pin for an already-resolved record, the freshly resolved pin otherwise). -/
theorem c10_alias_wrapper (s : State) (a : String)
    (h0 : lookupL s.byName0 a = none) (h1 : lookupL s.byName1 a = none) :
    (∀ d r, lookupL s.byAlias a = some ⟨d, some r⟩ →
      ∀ fuel, getByNameF fuel s a = .found (.pinAliasR a d r) s ∧
        (Pin.pinAliasR a d r).Name = a ∧ (Pin.pinAliasR a d r).Real = some r) ∧
    (∀ d f r s₁, lookupL s.byAlias a = some ⟨d, none⟩ →
      getByNameF f s d = .found r s₁ →
      getByNameF (f + 1) s a =
        .found (.pinAliasR a d r) (updateAlias s₁ a ⟨d, some r⟩) ∧
      (Pin.pinAliasR a d r).Name = a ∧ (Pin.pinAliasR a d r).Real = some r) := by
  constructor
  · intro d r h fuel
    refine ⟨?_, rfl, rfl⟩
    rw [getByNameF]
    simp only [h0, h1, h]
  · intro d f r s₁ h hres
    refine ⟨?_, rfl, rfl⟩
    rw [getByNameF]
    simp only [h0, h1, h, hres]

/-- Witness for C10 on the multi-hop registry: the resolved record "b" in
`c7s4` and the unresolved record "b" in `c7s3`. -/
theorem c10_alias_wrapper_witness :
    (∀ fuel, getByNameF fuel c7s4 "b" = .found (.pinAliasR "b" "c" pinC) c7s4 ∧
      (Pin.pinAliasR "b" "c" pinC).Name = "b" ∧
      (Pin.pinAliasR "b" "c" pinC).Real = some pinC) ∧
    (getByNameF 1 c7s3 "b" =
      .found (.pinAliasR "b" "c" pinC) (updateAlias c7s3 "b" ⟨"c", some pinC⟩) ∧
      (Pin.pinAliasR "b" "c" pinC).Name = "b" ∧
      (Pin.pinAliasR "b" "c" pinC).Real = some pinC) :=
  ⟨fun fuel => (c10_alias_wrapper c7s4 "b" (by decide) (by decide)).1 "c" pinC
      (by decide) fuel,
    (c10_alias_wrapper c7s3 "b" (by decide) (by decide)).2 "c" 0 pinC c7s3
      (by decide) (by decide)⟩

end Gpioreg
